import Mathlib

/-!
# Title fetcher: batch dispatch, completion tracking and title extraction

A shallow embedding of `main.go`.

* Every Go function is embedded as a pure function that returns the sequence of
  effects the function performs, in program order (`List Action`).  Deferred
  calls appear where Go runs them: at the return, last deferred first.
* What the outside world decides (the result of `http.NewRequest`, of
  `client.Do`, of reading a body, of `html.Parse`, of `url.Parse`, of opening
  the URL file, of `flag.Parse` on the command line) is a parameter (`Env`,
  `urlParse`, `FileSystem`, `flagParse`).
* Goroutines are threads of a small interleaving machine (`step`, `run`): a
  schedule picks, at each step, the thread that performs its next effect.
  `wg.Wait()` is enabled only when the counter is zero.
* `main.go` does not compile as it stands: `sendBatchRequests` passes `&wg`
  to `sendRequest` although its `wg` is already a `*sync.WaitGroup`, and the
  package `bytes` is used without being imported.  The embedding follows the
  evident intent: one tracker, shared by `main` and by every unit.
-/

namespace Title

/-! ## Data model -/

/-- A parsed URL, as returned by `url.Parse`. -/
structure URL where
  raw : String
deriving DecidableEq, Repr

/-- The value of type `func(*http.Request) (*url.URL, error)` that
`getProxyFunc` returns. -/
inductive ProxyFunc where
  /-- The function `http.ProxyFromEnvironment`. -/
  | fromEnvironment
  /-- The nil function: the transport connects directly. -/
  | nil
  /-- The function `http.ProxyURL(u)`. -/
  | proxyURL (u : URL)
deriving DecidableEq, Repr

/-- An `*http.Client` built by `sendBatchRequests`.  `addr` is the address of
the allocation `&http.Client{...}`: two clients are the same instance exactly
when their addresses agree. -/
structure Client where
  addr : Nat
  proxy : ProxyFunc
  insecureSkipVerify : Bool
deriving DecidableEq, Repr

/-- The two output streams of the process. -/
inductive Stream where
  | stdout
  | stderr
deriving DecidableEq, Repr

/-- An `*http.Request`; `timeout` is the deadline (in seconds) of the context
attached by `req.WithContext(ctx)`. -/
structure Request where
  method : String
  url : String
  timeout : Option Nat
deriving DecidableEq, Repr

/-- An `*http.Response`: `body` is what `ioutil.ReadAll(resp.Body)` yields, the
bytes of the body or the read error. -/
structure Response where
  body : Except String (List Nat)

/-- Node types of `golang.org/x/net/html`. -/
inductive NodeType where
  | errorNode
  | textNode
  | documentNode
  | elementNode
  | commentNode
  | doctypeNode
deriving DecidableEq, Repr

/-- An `*html.Node` with its children in sibling order (`FirstChild`, then
`NextSibling` repeatedly). -/
inductive Node where
  | mk (type : NodeType) (data : String) (children : List Node)

/-- One effect performed by a goroutine. -/
inductive Action where
  /-- The call `wg.Add(1)`. -/
  | add
  /-- The call `wg.Done()`. -/
  | done
  /-- The call `wg.Wait()`. -/
  | wait
  /-- The statement `go sendBatchRequests(batch, proxyFunc, &wg)`. -/
  | goBatch (batch : List String) (proxyFunc : ProxyFunc)
  /-- The statement `go sendRequest(u, client, &wg)`. -/
  | goRequest (url : String) (client : Client)
  /-- The allocation `&http.Client{Transport: transport}`. -/
  | newClient (c : Client)
  /-- One write to an output stream: a call of `fmt.Printf` or `fmt.Println`
  (stream `stdout`), or what the package `flag` writes when the command line
  does not parse (stream `stderr`). -/
  | print (stream : Stream) (text : String)
  /-- The call `http.NewRequest("GET", url, nil)`. -/
  | newRequest (url : String)
  /-- The call `context.WithTimeout(context.Background(), secs*time.Second)`. -/
  | withTimeout (secs : Nat)
  /-- The call `client.Do(req)`. -/
  | clientDo (client : Client) (req : Request)
  /-- The call `ioutil.ReadAll(resp.Body)`. -/
  | readAll
  /-- The call `extractTitle(body)`. -/
  | extractTitle
  /-- The deferred call `resp.Body.Close()`. -/
  | bodyClose
  /-- The deferred call `cancel()`. -/
  | cancel
  /-- The call `os.Exit(status)`, made by `flag.Parse()` when the command line
  does not parse. -/
  | exit (status : Nat)
deriving DecidableEq, Repr

/-- What the outside world answers to one per-URL unit. -/
structure Env where
  /-- Result of `http.NewRequest("GET", url, nil)`. -/
  newRequest : String → Except String Request
  /-- Result of `client.Do(req)`. -/
  clientDo : Client → Request → Except String Response
  /-- Result of `html.Parse(bytes.NewReader(body))`. -/
  parse : List Nat → Except String Node

/-- An opened file as `bufio.Scanner` sees it: the lines it yields and the
error, if any, that ended the scan. -/
structure ScannedFile where
  lines : List String
  scanErr : Option String

/-- The file system: the result of `os.Open`. -/
structure FileSystem where
  openFile : String → Except String ScannedFile

/-- What `flag.Parse()` makes of the command line, for the two string flags
`-w` and `-p` that `main` defines. -/
inductive FlagOutcome where
  /-- The command line parses: the values of `-w` and of `-p`, each the empty
  string when the flag is absent. -/
  | parsed (urlsFile proxyURL : String)
  /-- The command line does not parse (a flag that is not defined, a flag
  without its value, `-h`): the package `flag` writes `text`, its message and
  the usage, to `os.Stderr` and calls `os.Exit(status)`, with status 2, or 0
  for `-h` and `-help`. -/
  | failed (text : String) (status : Nat)

/-! ## `extractTitle` -/

/-- Field `Data` of a node. -/
def Node.data : Node → String
  | .mk _ d _ => d

/-- Field `Data` of `n.FirstChild`, for a node whose children are `cs`. -/
def firstChildData : List Node → String
  | [] => ""
  | first :: _ => first.data

mutual
/-- The closure `getTitle` of `extractTitle`. -/
def getTitle : Node → String
  | .mk ty d children =>
    if ty = NodeType.elementNode ∧ d = "title" ∧ children.isEmpty = false then
      firstChildData children
    else getTitleFrom children
/-- The loop `for c := n.FirstChild; c != nil; c = c.NextSibling` of
`getTitle`, from child `c` on. -/
def getTitleFrom : List Node → String
  | [] => ""
  | c :: cs =>
    let title := getTitle c
    if title ≠ "" then title else getTitleFrom cs
end

/-- The function `extractTitle`. -/
def extractTitle (parse : List Nat → Except String Node) (body : List Nat) : String :=
  match parse body with
  | .error _ => ""
  | .ok doc => getTitle doc

/-! ## Title elements and size of a document -/

mutual
/-- The element nodes named `title` below and including a node, in document order. -/
def titleElements : Node → List Node
  | .mk ty d children =>
    if ty = NodeType.elementNode ∧ d = "title" then
      Node.mk ty d children :: titleElementsFrom children
    else titleElementsFrom children
/-- The element nodes named `title` in a list of sibling subtrees. -/
def titleElementsFrom : List Node → List Node
  | [] => []
  | c :: cs => titleElements c ++ titleElementsFrom cs
end

mutual
/-- Number of nodes of a tree. -/
def Node.size : Node → Nat
  | .mk _ _ children => 1 + Node.sizeFrom children
/-- Number of nodes of a list of trees. -/
def Node.sizeFrom : List Node → Nat
  | [] => 0
  | c :: cs => Node.size c + Node.sizeFrom cs
end

mutual
/-- Number of calls of `getTitle` made by the call `getTitle(n)`, itself included. -/
def getTitleCalls : Node → Nat
  | .mk ty d children =>
    if ty = NodeType.elementNode ∧ d = "title" ∧ children.isEmpty = false then 1
    else 1 + getTitleCallsFrom children
/-- Number of calls of `getTitle` made by the loop over the children. -/
def getTitleCallsFrom : List Node → Nat
  | [] => 0
  | c :: cs =>
    if getTitle c ≠ "" then getTitleCalls c else getTitleCalls c + getTitleCallsFrom cs
end

/-- The element `<title>Example</title>`. -/
def exampleTitle : Node :=
  Node.mk NodeType.elementNode "title" [Node.mk NodeType.textNode "Example" []]

/-! ## `getProxyFunc`, `readURLs` -/

/-- The function `getProxyFunc`: the proxy function it returns and the effects
it performs.  `urlParse` is `url.Parse`. -/
def getProxyFunc (urlParse : String → Except String URL) (proxyURL : String) :
    ProxyFunc × List Action :=
  if proxyURL = "" then (ProxyFunc.fromEnvironment, [])
  else
    match urlParse proxyURL with
    | .error err =>
      (ProxyFunc.nil, [Action.print Stream.stdout ("Invalid proxy URL: " ++ err ++ "\n")])
    | .ok proxy => (ProxyFunc.proxyURL proxy, [])

/-- The function `readURLs`. -/
def readURLs (fs : FileSystem) (filename : String) : Except String (List String) :=
  match fs.openFile filename with
  | .error err => .error err
  | .ok file =>
    let urls := file.lines.foldl (fun urls text => urls ++ [text]) []
    match file.scanErr with
    | some err => .error err
    | none => .ok urls

/-! ## `sendRequest`, `sendBatchRequests`, `main` -/

/-- The function `sendRequest`, for the unit whose outside world is `env`. -/
def sendRequest (env : Env) (url : String) (client : Client) : List Action :=
  match env.newRequest url with
  | .error err =>
    [Action.newRequest url,
     Action.print Stream.stdout
       ("Error creating request for URL " ++ url ++ ": " ++ err ++ "\n"),
     Action.done]
  | .ok req0 =>
    let req : Request := { req0 with timeout := some 10 }
    match env.clientDo client req with
    | .error err =>
      [Action.newRequest url, Action.withTimeout 10, Action.clientDo client req,
       Action.print Stream.stdout
         ("Error sending request for URL " ++ url ++ ": " ++ err ++ "\n"),
       Action.cancel, Action.done]
    | .ok resp =>
      match resp.body with
      | .error err =>
        [Action.newRequest url, Action.withTimeout 10, Action.clientDo client req,
         Action.readAll,
         Action.print Stream.stdout
           ("Error reading response body for URL " ++ url ++ ": " ++ err ++ "\n"),
         Action.bodyClose, Action.cancel, Action.done]
      | .ok body =>
        let title := extractTitle env.parse body
        [Action.newRequest url, Action.withTimeout 10, Action.clientDo client req,
         Action.readAll, Action.extractTitle,
         Action.print Stream.stdout (title ++ " (" ++ url ++ ")\n"),
         Action.bodyClose, Action.cancel, Action.done]

/-- The loop `for _, u := range urls` of `sendBatchRequests`. -/
def batchLoop (client : Client) : List String → List Action
  | [] => []
  | u :: rest => Action.add :: Action.goRequest u client :: batchLoop client rest

/-- The function `sendBatchRequests`; `addr` is the address at which this call
allocates its `http.Client`. -/
def sendBatchRequests (urls : List String) (proxyFunc : ProxyFunc) (addr : Nat) :
    List Action :=
  let client : Client := { addr := addr, proxy := proxyFunc, insecureSkipVerify := true }
  Action.newClient client :: (batchLoop client urls ++ [Action.done])

/-- The Go slice expression `l[lo:hi]` (for `lo ≤ hi ≤ len(l)`). -/
def slice (l : List String) (lo hi : Nat) : List String :=
  (l.take hi).drop lo

/-- The loop `for i := 0; i < len(urls); i += 20` of `main`, from `i` on. -/
def mainLoop (urls : List String) (proxyFunc : ProxyFunc) (i : Nat) : List Action :=
  if i < urls.length then
    let e := if i + 20 > urls.length then urls.length else i + 20
    let batch := slice urls i e
    Action.add :: Action.goBatch batch proxyFunc :: mainLoop urls proxyFunc (i + 20)
  else []
termination_by urls.length - i

/-- Lines 37 to 50 of `main`: the dispatch loop followed by `wg.Wait()`. -/
def dispatch (urls : List String) (proxyFunc : ProxyFunc) : List Action :=
  mainLoop urls proxyFunc 0 ++ [Action.wait]

/-- Lines 24 to 51 of `main`: what `main` does once `flag.Parse()` has
returned, with the flag values `urlsFile` (`-w`) and `proxyURL` (`-p`). -/
def mainProg (fs : FileSystem) (urlParse : String → Except String URL)
    (urlsFile proxyURL : String) : List Action :=
  if urlsFile = "" then
    [Action.print Stream.stdout "Please provide a file containing URLs with -w option.\n"]
  else
    match readURLs fs urlsFile with
    | .error err =>
      [Action.print Stream.stdout ("Error reading URLs from file: " ++ err ++ "\n")]
    | .ok urls =>
      let r := getProxyFunc urlParse proxyURL
      r.2 ++ dispatch urls r.1

/-- The function `main`, for the command line `args`.  When `flag.Parse()`
(line 22) rejects the command line, the package `flag` writes its text to
standard error and exits the process; otherwise `main` goes on with the flag
values. -/
def main (flagParse : List String → FlagOutcome) (fs : FileSystem)
    (urlParse : String → Except String URL) (args : List String) : List Action :=
  match flagParse args with
  | FlagOutcome.failed text status =>
    [Action.print Stream.stderr text, Action.exit status]
  | FlagOutcome.parsed urlsFile proxyURL => mainProg fs urlParse urlsFile proxyURL

/-- The batches handed to `sendBatchRequests`, in dispatch order. -/
def dispatchedBatches : List Action → List (List String)
  | [] => []
  | Action.goBatch batch _ :: rest => batch :: dispatchedBatches rest
  | _ :: rest => dispatchedBatches rest

/-- The URLs handed to `sendRequest`, in spawn order. -/
def requestedUrls : List Action → List String
  | [] => []
  | Action.goRequest u _ :: rest => u :: requestedUrls rest
  | _ :: rest => requestedUrls rest

/-! ## The interleaving machine -/

/-- What a thread runs: `main`, one call of `sendBatchRequests`, or one call of
`sendRequest`, with the arguments of the call. -/
inductive Kind where
  | main
  | batch (urls : List String) (addr : Nat)
  | request (url : String) (client : Client)
deriving DecidableEq

/-- A goroutine: what it runs and the effects it has still to perform. -/
structure Thread where
  kind : Kind
  prog : List Action

/-- The state of the process.  `counter` is the counter of the one
`sync.WaitGroup`; `out` holds the writes made so far, each with its stream and
its text; `clients` are the `http.Client` values allocated so far; `adds` and
`dones` count the calls of `wg.Add(1)` and `wg.Done()` made so far; `panicked`
records the panic "sync: negative WaitGroup counter"; `exited` is the status
of the call of `os.Exit`, once made. -/
structure State where
  counter : Int
  threads : List Thread
  out : List (Stream × String)
  clients : List Client
  adds : Nat
  dones : Nat
  panicked : Bool
  exited : Option Nat

/-- The state in which only the main goroutine exists, about to run `p0`. -/
def init (p0 : List Action) : State :=
  { counter := 0, threads := [{ kind := Kind.main, prog := p0 }], out := [],
    clients := [], adds := 0, dones := 0, panicked := false, exited := none }

/-- The goroutine a `go` statement starts.  `n` is the number of goroutines
started before it: it names the new goroutine, selects its outside world, and
is the address of the client a batch unit allocates. -/
def spawned (world : Nat → Env) (n : Nat) : Action → List Thread
  | Action.goBatch b pf => [{ kind := Kind.batch b n, prog := sendBatchRequests b pf n }]
  | Action.goRequest u c => [{ kind := Kind.request u c, prog := sendRequest (world n) u c }]
  | _ => []

/-- The effect of one action on the shared state (the thread list apart). -/
def exec (a : Action) (s : State) : State :=
  match a with
  | Action.add => { s with counter := s.counter + 1, adds := s.adds + 1 }
  | Action.done =>
    { s with counter := s.counter - 1, dones := s.dones + 1,
             panicked := decide (s.counter - 1 < 0) }
  | Action.newClient c => { s with clients := s.clients ++ [c] }
  | Action.print st text => { s with out := s.out ++ [(st, text)] }
  | Action.exit status => { s with exited := some status }
  | _ => s

/-- One step: thread `i` performs its next action.  There is no step when the
process has panicked or has exited, when thread `i` does not exist or has
returned, or when its next action is `wg.Wait()` and the counter is not zero. -/
def step (world : Nat → Env) (s : State) (i : Nat) : Option State :=
  if s.panicked then none
  else if s.exited.isSome then none
  else
    match s.threads[i]? with
    | none => none
    | some t =>
      match t.prog with
      | [] => none
      | a :: rest =>
        if a = Action.wait ∧ s.counter ≠ 0 then none
        else
          some { exec a s with
                 threads := s.threads.set i { kind := t.kind, prog := rest }
                              ++ spawned world s.threads.length a }

/-- The state after the schedule `sched`, when every step of it is possible. -/
def run (world : Nat → Env) : State → List Nat → Option State
  | s, [] => some s
  | s, i :: sched =>
    match step world s i with
    | none => none
    | some s1 => run world s1 sched

/-- Sum of the weights of the actions of a program. -/
def wsum {M : Type} [AddCommMonoid M] (w : Action → M) (p : List Action) : M :=
  (p.map w).sum

/-- Value of a thread: the value of its kind plus the weight of what it has
still to do. -/
def tval {M : Type} [AddCommMonoid M] (k : Kind → M) (w : Action → M) (t : Thread) : M :=
  k t.kind + wsum w t.prog

/-- Sum of the values of all threads. -/
def tsum {M : Type} [AddCommMonoid M] (k : Kind → M) (w : Action → M) (s : State) : M :=
  (s.threads.map (tval k w)).sum

/-! ## Unfinished units -/

/-- Whether the next action of a program is `go sendBatchRequests(...)`. -/
def nextIsGoBatch : List Action → Bool
  | Action.goBatch _ _ :: _ => true
  | _ => false

/-- Whether the next action of a program is `go sendRequest(...)`. -/
def nextIsGoRequest : List Action → Bool
  | Action.goRequest _ _ :: _ => true
  | _ => false

/-- Unfinished batch units a thread accounts for: a batch unit is unfinished
from its registration (`wg.Add(1)` in `main`) until it has returned; between
the registration and the `go` statement it is accounted for by `main`. -/
def unfinishedBatchesOf (t : Thread) : Int :=
  match t.kind with
  | Kind.main => if nextIsGoBatch t.prog then 1 else 0
  | Kind.batch _ _ => if t.prog.isEmpty then 0 else 1
  | Kind.request _ _ => 0

/-- Unfinished per-URL units a thread accounts for: a per-URL unit is
unfinished from its registration (`wg.Add(1)` in `sendBatchRequests`) until it
has returned; between the registration and the `go` statement it is accounted
for by the batch unit. -/
def unfinishedRequestsOf (t : Thread) : Int :=
  match t.kind with
  | Kind.main => 0
  | Kind.batch _ _ => if nextIsGoRequest t.prog then 1 else 0
  | Kind.request _ _ => if t.prog.isEmpty then 0 else 1

/-- Number of unfinished batch units. -/
def unfinishedBatches (s : State) : Int :=
  (s.threads.map unfinishedBatchesOf).sum

/-- Number of unfinished per-URL units. -/
def unfinishedRequests (s : State) : Int :=
  (s.threads.map unfinishedRequestsOf).sum

/-- Whether a thread runs `sendBatchRequests`. -/
def Kind.isBatch : Kind → Bool
  | Kind.batch _ _ => true
  | _ => false

/-- Whether a thread runs `sendRequest`. -/
def Kind.isRequest : Kind → Bool
  | Kind.request _ _ => true
  | _ => false

/-- The batch units started so far. -/
def batchUnits (s : State) : List Thread :=
  s.threads.filter (fun t => t.kind.isBatch)

/-- The per-URL units started so far. -/
def requestUnits (s : State) : List Thread :=
  s.threads.filter (fun t => t.kind.isRequest)

/-- The URL a per-URL unit was started with. -/
def Kind.url? : Kind → Option String
  | Kind.request u _ => some u
  | _ => none

/-- The main goroutine has made its last call of `wg.Add(1)`. -/
def registeredLast (s : State) : Prop :=
  ∀ t, s.threads[0]? = some t → Action.add ∉ t.prog

/-- The main goroutine has returned (from `wg.Wait()` and from `main`). -/
def mainReturned (s : State) : Prop :=
  ∃ t, s.threads[0]? = some t ∧ t.prog = []

/-- Every goroutine has returned. -/
def completed (s : State) : Prop :=
  ∀ t ∈ s.threads, t.prog = []

/-- What a program writes, in order. -/
def printed : List Action → List (Stream × String)
  | [] => []
  | Action.print st text :: rest => (st, text) :: printed rest
  | _ :: rest => printed rest

/-! ## Weights and shapes of programs -/

/-- What an action still owes the completion tracker: a `wg.Done()` to come
owes one, a `go` statement stands for the `wg.Done()` of the unit it starts,
and a `wg.Add(1)` to come is repaid by the `go` statement that follows it. -/
def owe : Action → Int
  | Action.add => -1
  | Action.done => 1
  | Action.goBatch _ _ => 1
  | Action.goRequest _ _ => 1
  | _ => 0

/-- Batch units an action will start. -/
def wBatch : Action → Nat
  | Action.goBatch _ _ => 1
  | _ => 0

/-- Value `1` for a batch unit. -/
def kBatch : Kind → Nat
  | Kind.batch _ _ => 1
  | _ => 0

/-- Per-URL units an action will start, directly or through a batch. -/
def wReq : Action → Nat
  | Action.goBatch b _ => b.length
  | Action.goRequest _ _ => 1
  | _ => 0

/-- Value `1` for a per-URL unit. -/
def kReq : Kind → Nat
  | Kind.request _ _ => 1
  | _ => 0

/-- The URLs an action will hand to `sendRequest`, directly or through a batch. -/
def wUrl : Action → Multiset String
  | Action.goBatch b _ => (b : Multiset String)
  | Action.goRequest u _ => {u}
  | _ => 0

/-- The URL of a per-URL unit. -/
def kUrl : Kind → Multiset String
  | Kind.request u _ => {u}
  | _ => 0

/-- Calls of `wg.Add(1)` an action will cause. -/
def wAdd : Action → Nat
  | Action.add => 1
  | Action.goBatch b _ => b.length
  | _ => 0

/-- Calls of `wg.Done()` an action will cause. -/
def wDone : Action → Nat
  | Action.done => 1
  | Action.goBatch b _ => b.length + 1
  | Action.goRequest _ _ => 1
  | _ => 0

/-- Lines an action will cause to be written. -/
def wPrint : Action → Nat
  | Action.print _ _ => 1
  | Action.goBatch b _ => b.length
  | Action.goRequest _ _ => 1
  | _ => 0

/-- Clients an action will cause to be allocated. -/
def wClient : Action → Nat
  | Action.newClient _ => 1
  | Action.goBatch _ _ => 1
  | _ => 0

/-- Where a goroutine stands in its function. -/
inductive Phase where
  /-- In `main`, at the head of the dispatch loop or before `wg.Wait()`. -/
  | mLoop
  /-- In `main`, between `wg.Add(1)` and the `go` statement. -/
  | mGo
  /-- In `sendBatchRequests`, before the client is built. -/
  | bInit
  /-- In `sendBatchRequests`, at the head of the loop or before the deferred `wg.Done()`. -/
  | bLoop
  /-- In `sendBatchRequests`, between `wg.Add(1)` and the `go` statement. -/
  | bGo
  /-- In `sendRequest`, before the deferred `wg.Done()`. -/
  | rRun
  /-- Returned. -/
  | fin
deriving DecidableEq

/-- Actions that touch neither the tracker nor the set of goroutines nor the
set of clients. -/
def Action.isQuiet : Action → Bool
  | Action.print _ _ => true
  | Action.newRequest _ => true
  | Action.withTimeout _ => true
  | Action.clientDo _ _ => true
  | Action.readAll => true
  | Action.extractTitle => true
  | Action.bodyClose => true
  | Action.cancel => true
  | _ => false

/-- The phase after an action, for the thread numbered `i` of a run whose proxy
function is `pf`; `none` when the action cannot occur in that phase. -/
def nextPhase (pf : ProxyFunc) (i : Nat) : Phase → Action → Option Phase
  | Phase.mLoop, Action.add => some Phase.mGo
  | Phase.mLoop, Action.wait => some Phase.fin
  | Phase.mLoop, Action.print _ _ => some Phase.mLoop
  | Phase.mGo, Action.goBatch _ pf1 => if pf1 = pf then some Phase.mLoop else none
  | Phase.bInit, Action.newClient c =>
    if c = { addr := i, proxy := pf, insecureSkipVerify := true } then some Phase.bLoop
    else none
  | Phase.bLoop, Action.add => some Phase.bGo
  | Phase.bLoop, Action.done => some Phase.fin
  | Phase.bGo, Action.goRequest _ c =>
    if c = { addr := i, proxy := pf, insecureSkipVerify := true } then some Phase.bLoop
    else none
  | Phase.rRun, a =>
    if a = Action.done then some Phase.fin
    else if a.isQuiet then some Phase.rRun else none
  | _, _ => none

/-- A program is what remains to be done from a phase. -/
def Accepts (pf : ProxyFunc) (i : Nat) : Phase → List Action → Prop
  | ph, [] => ph = Phase.fin
  | ph, a :: rest => ∃ ph1, nextPhase pf i ph a = some ph1 ∧ Accepts pf i ph1 rest

/-- The phases of each kind of thread. -/
def phaseOK : Kind → Phase → Bool
  | Kind.main, Phase.mLoop => true
  | Kind.main, Phase.mGo => true
  | Kind.batch _ _, Phase.bInit => true
  | Kind.batch _ _, Phase.bLoop => true
  | Kind.batch _ _, Phase.bGo => true
  | Kind.request _ _, Phase.rRun => true
  | _, Phase.fin => true
  | _, _ => false

/-- What a goroutine in a phase owes the tracker. -/
def Phase.owes : Phase → Int
  | Phase.mLoop => 0
  | Phase.mGo => 1
  | Phase.bInit => 1
  | Phase.bLoop => 1
  | Phase.bGo => 2
  | Phase.rRun => 1
  | Phase.fin => 0

/-- The invariant of a run whose proxy function is `pf`. -/
structure Inv (pf : ProxyFunc) (s : State) : Prop where
  shape : ∀ i t, s.threads[i]? = some t →
    ∃ ph, phaseOK t.kind ph = true ∧ Accepts pf i ph t.prog
  mainAt : ∀ i t, s.threads[i]? = some t → (t.kind = Kind.main ↔ i = 0)
  nonempty : s.threads ≠ []
  counter : s.counter = tsum (fun _ => (0 : Int)) owe s
  nopanic : s.panicked = false
  clients : ∀ c ∈ s.clients, c = { addr := c.addr, proxy := pf, insecureSkipVerify := true } ∧
    ∃ t, s.threads[c.addr]? = some t ∧ t.kind.isBatch = true ∧
      ∀ c1, Action.newClient c1 ∉ t.prog
  nodup : (s.clients.map Client.addr).Nodup
  batchAddr : ∀ (i : Nat) (t : Thread) (b : List String) (a : Nat), s.threads[i]? = some t → t.kind = Kind.batch b a →
    a = i ∧ ∀ u ∈ requestedUrls t.prog, u ∈ b
  reqClient : ∀ (j : Nat) (t : Thread) (u : String) (c : Client), s.threads[j]? = some t → t.kind = Kind.request u c →
    c = { addr := c.addr, proxy := pf, insecureSkipVerify := true } ∧
    ∃ tb b, s.threads[c.addr]? = some tb ∧ tb.kind = Kind.batch b c.addr ∧ u ∈ b
  returned : mainReturned s → completed s
  noexit : s.exited = none

/-- At rest: the count is zero and `main` has registered its last batch. -/
def AtRest (pf : ProxyFunc) (s : State) : Prop :=
  Inv pf s ∧ s.counter = 0 ∧ registeredLast s

/-- Every batch unit and every per-URL unit of a run over `urls` has been
started and has returned: there are `ceil(N/20)` batch units and `N` per-URL
units, one for each entry of the list, and no thread but `main` has anything
left to do. -/
def allUnitsDone (urls : List String) (s : State) : Prop :=
  (batchUnits s).length = (urls.length + 19) / 20 ∧
  (requestUnits s).length = urls.length ∧
  (s.threads.filterMap (fun t => t.kind.url?)).Perm urls ∧
  ∀ t ∈ s.threads, t.kind ≠ Kind.main → t.prog = []

/-- Number of newline characters of a text: the number of lines a write of
that text puts out. -/
def newlines (text : String) : Nat :=
  text.toList.count '\n'

/-- Every write of a program goes to standard output. -/
def AllStdout (p : List Action) : Prop :=
  ∀ st text, Action.print st text ∈ p → st = Stream.stdout

/-! ## Sample inputs -/

/-- The document `<html><head><title>Example</title></head><body></body></html>`. -/
def sampleDoc : Node :=
  Node.mk NodeType.documentNode ""
    [Node.mk NodeType.elementNode "html"
      [Node.mk NodeType.elementNode "head" [exampleTitle],
       Node.mk NodeType.elementNode "body" []]]

/-- A document without a title: `<html><head></head><body>hello</body></html>`. -/
def untitledDoc : Node :=
  Node.mk NodeType.documentNode ""
    [Node.mk NodeType.elementNode "html"
      [Node.mk NodeType.elementNode "head" [],
       Node.mk NodeType.elementNode "body" [Node.mk NodeType.textNode "hello" []]]]

/-- A sample outside world: `http.NewRequest` rejects the URL `"::"`; the host
of `http://down` refuses the connection; the body of `http://cut` breaks off;
every other URL answers with a page that parses to `sampleDoc`. -/
def sampleEnv : Env :=
  { newRequest := fun u =>
      if u = "::" then Except.error "missing protocol scheme"
      else Except.ok { method := "GET", url := u, timeout := none }
    clientDo := fun _ req =>
      if req.url = "http://down" then Except.error "connection refused"
      else if req.url = "http://cut" then Except.ok { body := Except.error "unexpected EOF" }
      else Except.ok { body := Except.ok [60, 116, 105, 116, 108, 101, 62] }
    parse := fun _ => Except.ok sampleDoc }

/-- The sample outside world, for every unit. -/
def sampleWorld : Nat → Env := fun _ => sampleEnv

/-- A sample `url.Parse`: it rejects what starts with a colon. -/
def sampleUrlParse (text : String) : Except String URL :=
  if text.front = ':' then Except.error "missing protocol scheme"
  else Except.ok { raw := text }

/-- A sample file system: `urls.txt` holds the one line `::`. -/
def sampleFS : FileSystem :=
  { openFile := fun name =>
      if name = "urls.txt" then Except.ok { lines := ["::"], scanErr := none }
      else Except.error "no such file" }

/-- A sample text of the package `flag` for a command line it rejects. -/
def sampleUsage : String :=
  "flag provided but not defined: -x\nUsage of title:\n  -p string\n  -w string\n"

/-- A sample `flag.Parse`: it accepts the empty command line and `-w <file>`,
and rejects everything else with status 2. -/
def sampleFlagParse (args : List String) : FlagOutcome :=
  match args with
  | [] => FlagOutcome.parsed "" ""
  | [name, value] =>
    if name = "-w" then FlagOutcome.parsed value "" else FlagOutcome.failed sampleUsage 2
  | _ => FlagOutcome.failed sampleUsage 2

/-- A list of 21 URLs that `http.NewRequest` rejects. -/
def urls21 : List String := List.replicate 21 "::"

/-- A list of 45 URLs. -/
def urls45 : List String := List.replicate 45 "http://a"

/-- Thread `i`, `n` times in a row. -/
def times (n i : Nat) : List Nat := List.replicate n i

/-- A schedule for `urls21`: `main` registers and starts the first batch; the
first batch unit runs to its end; its 20 per-URL units run to their ends. -/
def firstBatchSchedule : List Nat :=
  [0, 0] ++ times 42 1 ++ (List.range 20).flatMap (fun j => times 3 (j + 2))

/-- Four URLs, one for each way through `sendRequest` in the sample world. -/
def sampleUrls : List String := ["http://a", "::", "http://down", "http://cut"]

/-- A schedule that runs `main` over `sampleUrls` to completion: `main`
registers and starts the batch, the batch unit runs to its end, the four
per-URL units run one after the other, `main` returns from `wg.Wait()`. -/
def sampleSchedule : List Nat :=
  [0, 0] ++ times 10 1 ++ times 9 2 ++ times 3 3 ++ times 6 4 ++ times 8 5 ++ [0]

/-- A schedule that runs `main` over the one URL of `urls.txt` to completion. -/
def oneUrlSchedule : List Nat := [0, 0, 1, 1, 1, 1, 2, 2, 2, 0]

/-- A schedule for `urls21`: `main` starts both batches, each batch unit
builds its client and starts its first per-URL unit. -/
def twoBatchSchedule : List Nat := [0, 0, 0, 0, 1, 2, 1, 1, 2, 2]

/-- The kinds of the per-URL units started so far. -/
def requestKinds (s : State) : List Kind :=
  (requestUnits s).map (fun t => t.kind)

/-- Whether every goroutine has returned. -/
def isCompleted (s : State) : Bool :=
  s.threads.all (fun t => t.prog.isEmpty)

/-- What is kept about the output: what has been written went to standard
output, and so will what is still to be written. -/
def OutInv (s : State) : Prop :=
  (∀ e ∈ s.out, e.1 = Stream.stdout) ∧ ∀ t ∈ s.threads, AllStdout t.prog

/-- An upper bound on the number of steps an action stands for: one step for
the action itself, and for a `go` statement the steps of the goroutine it
starts (at most 9 for `sendRequest`, `2 + 11 * len(urls)` for
`sendBatchRequests`). -/
def work : Action → Nat
  | Action.goRequest _ _ => 10
  | Action.goBatch b _ => 3 + 11 * b.length
  | _ => 1

/-- An upper bound on the number of steps left in a state. -/
def stepsLeft (s : State) : Nat :=
  (s.threads.map (fun t => wsum work t.prog)).sum

/-! # Theorems -/

/-! ## The batches of the dispatch loop -/

theorem dispatchedBatches_append (p q : List Action) :
    dispatchedBatches (p ++ q) = dispatchedBatches p ++ dispatchedBatches q := by
  induction p with
  | nil => rfl
  | cons a p ih => cases a <;> simp [dispatchedBatches, ih]

theorem mainLoop_unfold (urls : List String) (pf : ProxyFunc) (i : Nat) :
    mainLoop urls pf i =
      if i < urls.length then
        Action.add :: Action.goBatch (slice urls i (min (i + 20) urls.length)) pf
          :: mainLoop urls pf (i + 20)
      else [] := by
  rw [mainLoop]
  by_cases h : i < urls.length
  · simp only [h, if_true]
    by_cases h2 : i + 20 > urls.length
    · have : min (i + 20) urls.length = urls.length := by omega
      simp [h2, this]
    · have : min (i + 20) urls.length = i + 20 := by omega
      simp [h2, this]
  · simp [h]

theorem dispatchedBatches_mainLoop_get (urls : List String) (pf : ProxyFunc) :
    ∀ (j i : Nat), (dispatchedBatches (mainLoop urls pf i))[j]? =
      if i + 20 * j < urls.length then
        some (slice urls (i + 20 * j) (min (i + 20 * (j + 1)) urls.length))
      else none := by
  intro j
  induction j with
  | zero =>
    intro i
    rw [mainLoop_unfold]
    by_cases h : i < urls.length
    · simp [h, dispatchedBatches]
    · simp [h, dispatchedBatches]
  | succ j ih =>
    intro i
    rw [mainLoop_unfold]
    by_cases h : i < urls.length
    · have e1 : i + 20 + 20 * j = i + 20 * (j + 1) := by ring
      have e2 : i + 20 + 20 * (j + 1) = i + 20 * (j + 1 + 1) := by ring
      simp only [h, if_true, dispatchedBatches, List.getElem?_cons_succ, ih (i + 20), e1, e2]
    · have : ¬ (i + 20 * (j + 1) < urls.length) := by omega
      simp [h, this, dispatchedBatches]

theorem dispatchedBatches_mainLoop_length (urls : List String) (pf : ProxyFunc) :
    (dispatchedBatches (mainLoop urls pf 0)).length = (urls.length + 19) / 20 := by
  have hget := dispatchedBatches_mainLoop_get urls pf
  apply le_antisymm
  · by_contra hlt
    push_neg at hlt
    have h1 := hget ((urls.length + 19) / 20) 0
    have h2 : ¬ (0 + 20 * ((urls.length + 19) / 20) < urls.length) := by omega
    rw [if_neg h2, List.getElem?_eq_none_iff] at h1
    omega
  · by_contra hlt
    push_neg at hlt
    have h1 := hget (dispatchedBatches (mainLoop urls pf 0)).length 0
    have h2 : 0 + 20 * (dispatchedBatches (mainLoop urls pf 0)).length < urls.length := by omega
    rw [if_pos h2] at h1
    have h3 : (dispatchedBatches (mainLoop urls pf 0))[(dispatchedBatches (mainLoop urls pf 0)).length]? = none :=
      List.getElem?_eq_none_iff.mpr (le_refl _)
    rw [h3] at h1
    cases h1

theorem length_slice (l : List String) (lo hi : Nat) :
    (slice l lo hi).length = min hi l.length - lo := by
  simp [slice]

theorem flatten_dispatchedBatches_mainLoop (urls : List String) (pf : ProxyFunc) :
    ∀ (n i : Nat), urls.length - i ≤ n →
      (dispatchedBatches (mainLoop urls pf i)).flatten = urls.drop i := by
  intro n
  induction n with
  | zero =>
    intro i h
    rw [mainLoop_unfold]
    have h1 : ¬ i < urls.length := by omega
    have h2 : urls.length ≤ i := by omega
    simp [h1, dispatchedBatches, List.drop_eq_nil_of_le h2]
  | succ n ih =>
    intro i h
    rw [mainLoop_unfold]
    by_cases h1 : i < urls.length
    · simp only [h1, if_true, dispatchedBatches, List.flatten_cons]
      rw [ih (i + 20) (by omega)]
      simp only [slice]
      by_cases h2 : i + 20 ≤ urls.length
      · rw [min_eq_left h2]
        conv_rhs => rw [← List.take_append_drop (i + 20) urls]
        rw [List.drop_append_of_le_length]
        simp; omega
      · have h3 : min (i + 20) urls.length = urls.length := by omega
        rw [h3, List.take_length, List.drop_eq_nil_of_le (by omega : urls.length ≤ i + 20)]
        simp
    · have h2 : urls.length ≤ i := by omega
      simp [h1, dispatchedBatches, List.drop_eq_nil_of_le h2]

mutual
theorem getTitle_of_no_title : ∀ (n : Node), titleElements n = [] → getTitle n = ""
  | .mk ty d children => by
    intro h
    rw [titleElements] at h
    by_cases hc : ty = NodeType.elementNode ∧ d = "title"
    · simp [hc] at h
    · rw [if_neg hc] at h
      rw [getTitle, if_neg (fun hh => hc ⟨hh.1, hh.2.1⟩)]
      exact getTitleFrom_of_no_title children h
theorem getTitleFrom_of_no_title : ∀ (l : List Node), titleElementsFrom l = [] → getTitleFrom l = ""
  | [] => by intro _; rw [getTitleFrom]
  | c :: cs => by
    intro h
    rw [titleElementsFrom, List.append_eq_nil] at h
    rw [getTitleFrom]
    simp [getTitle_of_no_title c h.1, getTitleFrom_of_no_title cs h.2]
end

mutual
theorem getTitle_of_only_title : ∀ (n : Node), titleElements n = [exampleTitle] →
    getTitle n = "Example"
  | .mk ty d children => by
    intro h
    rw [titleElements] at h
    by_cases hc : ty = NodeType.elementNode ∧ d = "title"
    · rw [if_pos hc] at h
      have h1 := (List.cons_eq_cons.mp h).1
      rw [h1]
      simp [exampleTitle, getTitle, firstChildData, Node.data]
    · rw [if_neg hc] at h
      rw [getTitle, if_neg (fun hh => hc ⟨hh.1, hh.2.1⟩)]
      exact getTitleFrom_of_only_title children h
theorem getTitleFrom_of_only_title : ∀ (l : List Node), titleElementsFrom l = [exampleTitle] →
    getTitleFrom l = "Example"
  | [] => by intro h; simp [titleElementsFrom] at h
  | c :: cs => by
    intro h
    rw [titleElementsFrom, List.append_eq_cons_iff] at h
    rw [getTitleFrom]
    rcases h with ⟨h1, h2⟩ | ⟨as, h1, h2⟩
    · simp [getTitle_of_no_title c h1, getTitleFrom_of_only_title cs h2]
    · have h3 := List.append_eq_nil.mp h2.symm
      rw [h3.1] at h1
      simp [getTitle_of_only_title c h1]
end

mutual
theorem getTitleCalls_le : ∀ (n : Node), 1 ≤ getTitleCalls n ∧ getTitleCalls n ≤ Node.size n
  | .mk ty d children => by
    rw [getTitleCalls, Node.size]
    have := getTitleCallsFrom_le children
    split <;> omega
theorem getTitleCallsFrom_le : ∀ (l : List Node), getTitleCallsFrom l ≤ Node.sizeFrom l
  | [] => by simp [getTitleCallsFrom]
  | c :: cs => by
    rw [getTitleCallsFrom, Node.sizeFrom]
    have h1 := getTitleCalls_le c
    have h2 := getTitleCallsFrom_le cs
    split <;> omega
end

/-! ## The machine: generic facts -/

theorem step_eq_some {world : Nat → Env} {s s1 : State} {i : Nat}
    (h : step world s i = some s1) :
    ∃ t a rest, s.threads[i]? = some t ∧ t.prog = a :: rest ∧ s.panicked = false ∧
      (a = Action.wait → s.counter = 0) ∧
      s1 = { exec a s with
             threads := s.threads.set i { kind := t.kind, prog := rest }
                          ++ spawned world s.threads.length a } := by
  unfold step at h
  split at h
  · cases h
  · rename_i hp
    split at h
    · cases h
    · split at h
      · cases h
      · rename_i t ht
        split at h
        · cases h
        · rename_i a rest hprog
          split at h
          · cases h
          · rename_i hw
            refine ⟨t, a, rest, ht, hprog, by simpa using hp, ?_, ?_⟩
            · intro ha
              by_contra hc
              exact hw ⟨ha, hc⟩
            · exact (Option.some.inj h).symm

theorem run_invariant {world : Nat → Env} (P : State → Prop)
    (hstep : ∀ s i s1, P s → step world s i = some s1 → P s1) :
    ∀ (sched : List Nat) (s s1 : State), P s → run world s sched = some s1 → P s1 := by
  intro sched
  induction sched with
  | nil =>
    intro s s1 hs h
    simp only [run, Option.some.injEq] at h
    exact h ▸ hs
  | cons i sched ih =>
    intro s s1 hs h
    simp only [run] at h
    split at h
    · cases h
    · rename_i s2 h2
      exact ih s2 s1 (hstep s i s2 hs h2) h

theorem sum_map_set {M : Type} [AddCommMonoid M] (f : Thread → M) :
    ∀ (l : List Thread) (i : Nat) (t t1 : Thread), l[i]? = some t →
      ((l.set i t1).map f).sum + f t = (l.map f).sum + f t1 := by
  intro l
  induction l with
  | nil => intro i t t1 h; simp at h
  | cons x l ih =>
    intro i t t1 h
    cases i with
    | zero =>
      simp only [List.getElem?_cons_zero, Option.some.injEq] at h
      subst h
      simp only [List.set_cons_zero, List.map_cons, List.sum_cons]
      simp only [add_assoc, add_comm, add_left_comm]
    | succ i =>
      simp only [List.getElem?_cons_succ] at h
      simp only [List.set_cons_succ, List.map_cons, List.sum_cons]
      rw [add_assoc, ih i t t1 h, add_assoc]

/-- Conservation: when the state quantity `G` gains the weight of every action
executed, and a `go` statement weighs what the goroutine it starts is worth,
`G` plus the value of all threads never changes. -/
theorem step_conserve {M : Type} [AddCancelCommMonoid M] (world : Nat → Env)
    (k : Kind → M) (w : Action → M) (G : State → M)
    (hG : ∀ (a : Action) (s : State) (ts : List Thread) (n : Nat),
      G { exec a s with threads := ts } + ((spawned world n a).map (tval k w)).sum
        = G s + w a)
    {s s1 : State} {i : Nat} (h : step world s i = some s1) :
    G s1 + tsum k w s1 = G s + tsum k w s := by
  obtain ⟨t, a, rest, ht, hprog, -, -, rfl⟩ := step_eq_some h
  have hset := sum_map_set (tval k w) s.threads i t { kind := t.kind, prog := rest } ht
  have htv : tval k w t = w a + tval k w { kind := t.kind, prog := rest } := by
    simp only [tval, wsum, hprog, List.map_cons, List.sum_cons]
    rw [add_left_comm]
  have hG1 := hG a s (s.threads.set i { kind := t.kind, prog := rest }
                          ++ spawned world s.threads.length a) s.threads.length
  simp only [tsum, List.map_append, List.sum_append]
  rw [htv] at hset
  have hset2 : ((s.threads.set i { kind := t.kind, prog := rest }).map (tval k w)).sum + w a
      = (s.threads.map (tval k w)).sum := by
    apply add_right_cancel (b := tval k w { kind := t.kind, prog := rest })
    rw [add_assoc, hset]
  rw [← hset2]
  rw [add_comm _ (w a), ← add_assoc (G s), ← hG1]
  simp only [add_assoc, add_comm, add_left_comm]

theorem run_conserve {M : Type} [AddCancelCommMonoid M] (world : Nat → Env)
    (k : Kind → M) (w : Action → M) (G : State → M)
    (hG : ∀ (a : Action) (s : State) (ts : List Thread) (n : Nat),
      G { exec a s with threads := ts } + ((spawned world n a).map (tval k w)).sum
        = G s + w a)
    (sched : List Nat) (s s1 : State) (h : run world s sched = some s1) :
    G s1 + tsum k w s1 = G s + tsum k w s := by
  exact run_invariant (fun x => G x + tsum k w x = G s + tsum k w s)
    (fun x i x1 hx hstep => by
      show G x1 + tsum k w x1 = G s + tsum k w s
      rw [step_conserve world k w G hG hstep]; exact hx) sched s s1 rfl h

/-! ## Weights -/

theorem wsum_nil {M : Type} [AddCommMonoid M] (w : Action → M) : wsum w [] = 0 := rfl

theorem wsum_cons {M : Type} [AddCommMonoid M] (w : Action → M) (a : Action)
    (p : List Action) : wsum w (a :: p) = w a + wsum w p := by
  simp [wsum]

theorem wsum_append {M : Type} [AddCommMonoid M] (w : Action → M) (p q : List Action) :
    wsum w (p ++ q) = wsum w p + wsum w q := by
  simp [wsum]

/-- The weight of `sendRequest`, for a weight that sees only the line it
writes and its `wg.Done()`. -/
theorem wsum_sendRequest {M : Type} [AddCommMonoid M] (w : Action → M) (p : M)
    (hq : ∀ a : Action, a.isQuiet = true → (∀ st text, a ≠ Action.print st text) → w a = 0)
    (hp : ∀ st text, w (Action.print st text) = p)
    (env : Env) (u : String) (c : Client) :
    wsum w (sendRequest env u c) = p + w Action.done := by
  have q1 : ∀ x, w (Action.newRequest x) = 0 := fun x => hq _ rfl (by intro _ _ h; cases h)
  have q2 : ∀ x, w (Action.withTimeout x) = 0 := fun x => hq _ rfl (by intro _ _ h; cases h)
  have q3 : ∀ x y, w (Action.clientDo x y) = 0 := fun x y => hq _ rfl (by intro _ _ h; cases h)
  have q4 : w Action.readAll = 0 := hq _ rfl (by intro _ _ h; cases h)
  have q5 : w Action.extractTitle = 0 := hq _ rfl (by intro _ _ h; cases h)
  have q6 : w Action.bodyClose = 0 := hq _ rfl (by intro _ _ h; cases h)
  have q7 : w Action.cancel = 0 := hq _ rfl (by intro _ _ h; cases h)
  unfold sendRequest
  split
  · simp [wsum, q1, hp]
  · dsimp only
    split
    · simp [wsum, q1, q2, q3, q7, hp]
    · split <;> simp [wsum, q1, q2, q3, q4, q5, q6, q7, hp]

theorem owe_sendRequest (env : Env) (u : String) (c : Client) :
    wsum owe (sendRequest env u c) = 1 := by
  have h := wsum_sendRequest owe (owe (Action.print Stream.stdout ""))
    (by intro a h1 h2; cases a <;> simp_all [owe, Action.isQuiet])
    (by intro st text; rfl) env u c
  simpa [owe] using h

theorem owe_batchLoop (c : Client) (urls : List String) :
    wsum owe (batchLoop c urls) = 0 := by
  induction urls with
  | nil => rfl
  | cons u rest ih => simp [batchLoop, wsum_cons, owe, ih]

theorem owe_sendBatchRequests (b : List String) (pf : ProxyFunc) (n : Nat) :
    wsum owe (sendBatchRequests b pf n) = 1 := by
  simp [sendBatchRequests, wsum_cons, wsum_append, owe_batchLoop, owe, wsum_nil]

theorem wBatch_sendRequest (env : Env) (u : String) (c : Client) :
    wsum wBatch (sendRequest env u c) = 0 := by
  have h := wsum_sendRequest wBatch (wBatch (Action.print Stream.stdout ""))
    (by intro a h1 h2; cases a <;> simp_all [wBatch, Action.isQuiet])
    (by intro st text; rfl) env u c
  simpa [wBatch] using h

theorem wBatch_sendBatchRequests (b : List String) (pf : ProxyFunc) (n : Nat) :
    wsum wBatch (sendBatchRequests b pf n) = 0 := by
  have h : ∀ (c : Client) (l : List String), wsum wBatch (batchLoop c l) = 0 := by
    intro c l
    induction l with
    | nil => rfl
    | cons u rest ih => simp [batchLoop, wsum_cons, wBatch, ih]
  simp [sendBatchRequests, wsum_cons, wsum_append, h, wBatch, wsum_nil]

theorem wReq_sendRequest (env : Env) (u : String) (c : Client) :
    wsum wReq (sendRequest env u c) = 0 := by
  have h := wsum_sendRequest wReq (wReq (Action.print Stream.stdout ""))
    (by intro a h1 h2; cases a <;> simp_all [wReq, Action.isQuiet])
    (by intro st text; rfl) env u c
  simpa [wReq] using h

theorem wReq_sendBatchRequests (b : List String) (pf : ProxyFunc) (n : Nat) :
    wsum wReq (sendBatchRequests b pf n) = b.length := by
  have h : ∀ (c : Client) (l : List String), wsum wReq (batchLoop c l) = l.length := by
    intro c l
    induction l with
    | nil => rfl
    | cons u rest ih => simp [batchLoop, wsum_cons, wReq, ih]; omega
  simp [sendBatchRequests, wsum_cons, wsum_append, h, wReq, wsum_nil]

theorem wUrl_sendRequest (env : Env) (u : String) (c : Client) :
    wsum wUrl (sendRequest env u c) = 0 := by
  have h := wsum_sendRequest wUrl (wUrl (Action.print Stream.stdout ""))
    (by intro a h1 h2; cases a <;> simp_all [wUrl, Action.isQuiet])
    (by intro st text; rfl) env u c
  simpa [wUrl] using h

theorem wUrl_sendBatchRequests (b : List String) (pf : ProxyFunc) (n : Nat) :
    wsum wUrl (sendBatchRequests b pf n) = (b : Multiset String) := by
  have h : ∀ (c : Client) (l : List String),
      wsum wUrl (batchLoop c l) = (l : Multiset String) := by
    intro c l
    induction l with
    | nil => rfl
    | cons u rest ih =>
      simp only [batchLoop, wsum_cons, wUrl, ih, zero_add]
      rw [← Multiset.cons_coe, Multiset.singleton_add]
  simp [sendBatchRequests, wsum_cons, wsum_append, h, wUrl, wsum_nil]

theorem wAdd_sendRequest (env : Env) (u : String) (c : Client) :
    wsum wAdd (sendRequest env u c) = 0 := by
  have h := wsum_sendRequest wAdd (wAdd (Action.print Stream.stdout ""))
    (by intro a h1 h2; cases a <;> simp_all [wAdd, Action.isQuiet])
    (by intro st text; rfl) env u c
  simpa [wAdd] using h

theorem wAdd_sendBatchRequests (b : List String) (pf : ProxyFunc) (n : Nat) :
    wsum wAdd (sendBatchRequests b pf n) = b.length := by
  have h : ∀ (c : Client) (l : List String), wsum wAdd (batchLoop c l) = l.length := by
    intro c l
    induction l with
    | nil => rfl
    | cons u rest ih => simp [batchLoop, wsum_cons, wAdd, ih]; omega
  simp [sendBatchRequests, wsum_cons, wsum_append, h, wAdd, wsum_nil]

theorem wDone_sendRequest (env : Env) (u : String) (c : Client) :
    wsum wDone (sendRequest env u c) = 1 := by
  have h := wsum_sendRequest wDone (wDone (Action.print Stream.stdout ""))
    (by intro a h1 h2; cases a <;> simp_all [wDone, Action.isQuiet])
    (by intro st text; rfl) env u c
  simpa [wDone] using h

theorem wDone_sendBatchRequests (b : List String) (pf : ProxyFunc) (n : Nat) :
    wsum wDone (sendBatchRequests b pf n) = b.length + 1 := by
  have h : ∀ (c : Client) (l : List String), wsum wDone (batchLoop c l) = l.length := by
    intro c l
    induction l with
    | nil => rfl
    | cons u rest ih => simp [batchLoop, wsum_cons, wDone, ih]; omega
  simp [sendBatchRequests, wsum_cons, wsum_append, h, wDone, wsum_nil]

theorem wPrint_sendRequest (env : Env) (u : String) (c : Client) :
    wsum wPrint (sendRequest env u c) = 1 := by
  have h := wsum_sendRequest wPrint (wPrint (Action.print Stream.stdout ""))
    (by intro a h1 h2; cases a <;> simp_all [wPrint, Action.isQuiet])
    (by intro st text; rfl) env u c
  simpa [wPrint] using h

theorem wPrint_sendBatchRequests (b : List String) (pf : ProxyFunc) (n : Nat) :
    wsum wPrint (sendBatchRequests b pf n) = b.length := by
  have h : ∀ (c : Client) (l : List String), wsum wPrint (batchLoop c l) = l.length := by
    intro c l
    induction l with
    | nil => rfl
    | cons u rest ih => simp [batchLoop, wsum_cons, wPrint, ih]; omega
  simp [sendBatchRequests, wsum_cons, wsum_append, h, wPrint, wsum_nil]

theorem wClient_sendRequest (env : Env) (u : String) (c : Client) :
    wsum wClient (sendRequest env u c) = 0 := by
  have h := wsum_sendRequest wClient (wClient (Action.print Stream.stdout ""))
    (by intro a h1 h2; cases a <;> simp_all [wClient, Action.isQuiet])
    (by intro st text; rfl) env u c
  simpa [wClient] using h

theorem wClient_sendBatchRequests (b : List String) (pf : ProxyFunc) (n : Nat) :
    wsum wClient (sendBatchRequests b pf n) = 1 := by
  have h : ∀ (c : Client) (l : List String), wsum wClient (batchLoop c l) = 0 := by
    intro c l
    induction l with
    | nil => rfl
    | cons u rest ih => simp [batchLoop, wsum_cons, wClient, ih]
  simp [sendBatchRequests, wsum_cons, wsum_append, h, wClient, wsum_nil]

/-! ## Conservation laws of a run -/

theorem conserve_owe (world : Nat → Env) (sched : List Nat) (s s1 : State)
    (h : run world s sched = some s1) :
    -s1.counter + tsum (fun _ => (0 : Int)) owe s1 = -s.counter + tsum (fun _ => (0 : Int)) owe s := by
  refine run_conserve world (fun _ => (0 : Int)) owe (fun x => -x.counter) ?_ sched s s1 h
  intro a s ts n
  cases a <;> simp [exec, spawned, tval, owe, owe_sendRequest, owe_sendBatchRequests] <;> omega

theorem conserve_batch (world : Nat → Env) (sched : List Nat) (s s1 : State)
    (h : run world s sched = some s1) :
    tsum kBatch wBatch s1 = tsum kBatch wBatch s := by
  have := run_conserve world kBatch wBatch (fun _ => 0) (by
    intro a s ts n
    cases a <;> simp [exec, spawned, tval, wBatch, kBatch, wBatch_sendRequest,
      wBatch_sendBatchRequests]) sched s s1 h
  simpa using this

theorem conserve_req (world : Nat → Env) (sched : List Nat) (s s1 : State)
    (h : run world s sched = some s1) :
    tsum kReq wReq s1 = tsum kReq wReq s := by
  have := run_conserve world kReq wReq (fun _ => 0) (by
    intro a s ts n
    cases a <;> simp [exec, spawned, tval, wReq, kReq, wReq_sendRequest,
      wReq_sendBatchRequests]) sched s s1 h
  simpa using this

theorem conserve_url (world : Nat → Env) (sched : List Nat) (s s1 : State)
    (h : run world s sched = some s1) :
    tsum kUrl wUrl s1 = tsum kUrl wUrl s := by
  have := run_conserve world kUrl wUrl (fun _ => 0) (by
    intro a s ts n
    cases a <;> simp [exec, spawned, tval, wUrl, kUrl, wUrl_sendRequest,
      wUrl_sendBatchRequests]) sched s s1 h
  simpa using this

theorem conserve_add (world : Nat → Env) (sched : List Nat) (s s1 : State)
    (h : run world s sched = some s1) :
    s1.adds + tsum (fun _ => 0) wAdd s1 = s.adds + tsum (fun _ => 0) wAdd s := by
  refine run_conserve world (fun _ => 0) wAdd (fun x => x.adds) ?_ sched s s1 h
  intro a s ts n
  cases a <;> simp [exec, spawned, tval, wAdd, wAdd_sendRequest, wAdd_sendBatchRequests]

theorem conserve_done (world : Nat → Env) (sched : List Nat) (s s1 : State)
    (h : run world s sched = some s1) :
    s1.dones + tsum (fun _ => 0) wDone s1 = s.dones + tsum (fun _ => 0) wDone s := by
  refine run_conserve world (fun _ => 0) wDone (fun x => x.dones) ?_ sched s s1 h
  intro a s ts n
  cases a <;> simp [exec, spawned, tval, wDone, wDone_sendRequest, wDone_sendBatchRequests]

theorem conserve_print (world : Nat → Env) (sched : List Nat) (s s1 : State)
    (h : run world s sched = some s1) :
    s1.out.length + tsum (fun _ => 0) wPrint s1 = s.out.length + tsum (fun _ => 0) wPrint s := by
  refine run_conserve world (fun _ => 0) wPrint (fun x => x.out.length) ?_ sched s s1 h
  intro a s ts n
  cases a <;> simp [exec, spawned, tval, wPrint, wPrint_sendRequest, wPrint_sendBatchRequests]

theorem conserve_client (world : Nat → Env) (sched : List Nat) (s s1 : State)
    (h : run world s sched = some s1) :
    s1.clients.length + tsum (fun _ => 0) wClient s1
      = s.clients.length + tsum (fun _ => 0) wClient s := by
  refine run_conserve world (fun _ => 0) wClient (fun x => x.clients.length) ?_ sched s s1 h
  intro a s ts n
  cases a <;> simp [exec, spawned, tval, wClient, wClient_sendRequest,
    wClient_sendBatchRequests]

/-! ## Shapes of the programs -/

theorem accepts_fin {pf : ProxyFunc} {i : Nat} {p : List Action}
    (h : Accepts pf i Phase.fin p) : p = [] := by
  cases p with
  | nil => rfl
  | cons a rest =>
    obtain ⟨ph1, h1, -⟩ := h
    simp [nextPhase] at h1

theorem nextPhase_owes {pf : ProxyFunc} {i : Nat} {ph ph1 : Phase} {a : Action}
    (h : nextPhase pf i ph a = some ph1) : owe a + ph1.owes = ph.owes := by
  cases ph <;> cases a <;> simp [nextPhase, Action.isQuiet] at h <;>
    first
      | (subst h; simp [owe, Phase.owes])
      | (obtain ⟨-, rfl⟩ := h; simp [owe, Phase.owes])

theorem nextPhase_phaseOK {pf : ProxyFunc} {i : Nat} {k : Kind} {ph ph1 : Phase} {a : Action}
    (hk : phaseOK k ph = true) (h : nextPhase pf i ph a = some ph1) :
    phaseOK k ph1 = true := by
  cases ph <;> cases a <;> simp [nextPhase, Action.isQuiet] at h <;> cases k <;>
    simp [phaseOK] at hk <;>
    first
      | (subst h; simp [phaseOK])
      | (obtain ⟨-, rfl⟩ := h; simp [phaseOK])

theorem accepts_owes {pf : ProxyFunc} {i : Nat} :
    ∀ (p : List Action) (ph : Phase), Accepts pf i ph p → wsum owe p = ph.owes := by
  intro p
  induction p with
  | nil => intro ph h; simp only [Accepts] at h; subst h; rfl
  | cons a rest ih =>
    intro ph h
    obtain ⟨ph1, h1, h2⟩ := h
    rw [wsum_cons, ih ph1 h2]
    exact nextPhase_owes h1

theorem owes_nonneg (ph : Phase) : 0 ≤ ph.owes := by
  cases ph <;> simp [Phase.owes]

theorem accepts_no_newClient {pf : ProxyFunc} {i : Nat} :
    ∀ (p : List Action) (ph : Phase), Accepts pf i ph p → ph ≠ Phase.bInit →
      ∀ c, Action.newClient c ∉ p := by
  intro p
  induction p with
  | nil => intro ph _ _ c; simp
  | cons a rest ih =>
    intro ph h hne c
    obtain ⟨ph1, h1, h2⟩ := h
    have hne1 : ph1 ≠ Phase.bInit := by
      intro hc
      subst hc
      cases ph <;> cases a <;> simp [nextPhase, Action.isQuiet] at h1
    have ha : a ≠ Action.newClient c := by
      intro hc
      subst hc
      cases ph <;> simp [nextPhase, Action.isQuiet] at h1
      exact hne rfl
    simp only [List.mem_cons, not_or]
    exact ⟨fun hc => ha hc.symm, ih ph1 h2 hne1 c⟩

theorem accepts_sendRequest (pf : ProxyFunc) (i : Nat) (env : Env) (u : String) (c : Client) :
    Accepts pf i Phase.rRun (sendRequest env u c) := by
  unfold sendRequest
  split
  · simp [Accepts, nextPhase, Action.isQuiet]
  · dsimp only
    split
    · simp [Accepts, nextPhase, Action.isQuiet]
    · split <;> simp [Accepts, nextPhase, Action.isQuiet]

theorem accepts_batchLoop (pf : ProxyFunc) (n : Nat) :
    ∀ (urls : List String),
      Accepts pf n Phase.bLoop
        (batchLoop { addr := n, proxy := pf, insecureSkipVerify := true } urls
          ++ [Action.done]) := by
  intro urls
  induction urls with
  | nil => simp [batchLoop, Accepts, nextPhase]
  | cons u rest ih =>
    simp only [batchLoop, List.cons_append, Accepts]
    exact ⟨Phase.bGo, rfl, Phase.bLoop, by simp [nextPhase], ih⟩

theorem accepts_sendBatchRequests (pf : ProxyFunc) (n : Nat) (b : List String) :
    Accepts pf n Phase.bInit (sendBatchRequests b pf n) := by
  simp only [sendBatchRequests, Accepts]
  exact ⟨Phase.bLoop, by simp [nextPhase], accepts_batchLoop pf n b⟩

theorem accepts_mainLoop (urls : List String) (pf : ProxyFunc) :
    ∀ (n i : Nat), urls.length - i ≤ n →
      Accepts pf 0 Phase.mLoop (mainLoop urls pf i ++ [Action.wait]) := by
  intro n
  induction n with
  | zero =>
    intro i h
    rw [mainLoop_unfold, if_neg (by omega)]
    simp [Accepts, nextPhase]
  | succ n ih =>
    intro i h
    rw [mainLoop_unfold]
    by_cases h1 : i < urls.length
    · rw [if_pos h1]
      simp only [List.cons_append, Accepts]
      exact ⟨Phase.mGo, rfl, Phase.mLoop, by simp [nextPhase], ih (i + 20) (by omega)⟩
    · rw [if_neg h1]
      simp [Accepts, nextPhase]

theorem accepts_dispatch (urls : List String) (pf : ProxyFunc) :
    Accepts pf 0 Phase.mLoop (dispatch urls pf) :=
  accepts_mainLoop urls pf urls.length 0 (by omega)

theorem unfinished_of_accepts {pf : ProxyFunc} {i : Nat} {t : Thread} {ph : Phase}
    (hk : phaseOK t.kind ph = true) (h : Accepts pf i ph t.prog) :
    unfinishedBatchesOf t + unfinishedRequestsOf t = ph.owes := by
  obtain ⟨k, p⟩ := t
  cases p with
  | nil =>
    simp only [Accepts] at h
    subst h
    cases k <;> simp [unfinishedBatchesOf, unfinishedRequestsOf, nextIsGoBatch,
      nextIsGoRequest, Phase.owes]
  | cons a rest =>
    obtain ⟨ph1, h1, -⟩ := h
    cases ph <;> cases a <;> simp [nextPhase, Action.isQuiet] at h1 <;> cases k <;>
      simp [phaseOK] at hk <;>
      simp [unfinishedBatchesOf, unfinishedRequestsOf, nextIsGoBatch,
        nextIsGoRequest, Phase.owes]

theorem getElem?_set_append {l : List Thread} {i j : Nat} {x y : Thread} {sp : List Thread}
    (hsp : sp.length ≤ 1) (hi : i < l.length) (h : (l.set i x ++ sp)[j]? = some y) :
    (j = i ∧ y = x) ∨ (j ≠ i ∧ l[j]? = some y) ∨ (j = l.length ∧ sp = [y]) := by
  by_cases hj : j < l.length
  · rw [List.getElem?_append_left (by simpa using hj), List.getElem?_set] at h
    by_cases hij : i = j
    · subst hij
      simp only [if_true, hi, Option.some.injEq] at h
      exact Or.inl ⟨rfl, h.symm⟩
    · rw [if_neg hij] at h
      exact Or.inr (Or.inl ⟨fun hc => hij hc.symm, h⟩)
  · rw [List.getElem?_append_right (by simpa using hj)] at h
    simp only [List.length_set] at h
    right; right
    match sp, hsp, h with
    | [z], _, h =>
      have hlt : j - l.length < 1 := by
        by_contra hc
        rw [List.getElem?_eq_none (by simp only [List.length_singleton]; omega)] at h
        cases h
      have h0 : j - l.length = 0 := by omega
      rw [h0] at h
      simp only [List.getElem?_cons_zero, Option.some.injEq] at h
      exact ⟨by omega, by rw [h]⟩

theorem spawned_length_le (world : Nat → Env) (n : Nat) (a : Action) :
    (spawned world n a).length ≤ 1 := by
  cases a <;> simp [spawned]

theorem single_le_sum_map {l : List Thread} {f : Thread → Int} (hf : ∀ x ∈ l, 0 ≤ f x)
    {t : Thread} (ht : t ∈ l) : f t ≤ (l.map f).sum := by
  apply List.single_le_sum (l := l.map f)
  · intro y hy
    obtain ⟨x, hx, rfl⟩ := List.mem_map.mp hy
    exact hf x hx
  · exact List.mem_map.mpr ⟨t, ht, rfl⟩

/-! ## The invariant is kept -/

theorem requestedUrls_tail (a : Action) {rest : List Action} {u : String}
    (h : u ∈ requestedUrls rest) : u ∈ requestedUrls (a :: rest) := by
  cases a <;> simp [requestedUrls, h]

theorem requestedUrls_batchLoop (c : Client) (b : List String) :
    requestedUrls (batchLoop c b ++ [Action.done]) = b := by
  induction b with
  | nil => simp [batchLoop, requestedUrls]
  | cons u rest ih => simp [batchLoop, requestedUrls, ih]

theorem requestedUrls_sendBatchRequests (b : List String) (pf : ProxyFunc) (n : Nat) :
    requestedUrls (sendBatchRequests b pf n) = b := by
  simp [sendBatchRequests, requestedUrls, requestedUrls_batchLoop]

theorem tval_owe_of_shape {pf : ProxyFunc} {s : State} (hinv : Inv pf s) :
    ∀ x ∈ s.threads, 0 ≤ tval (fun _ => (0 : Int)) owe x := by
  intro x hx
  obtain ⟨j, hj⟩ := List.getElem?_of_mem hx
  obtain ⟨ph, -, hacc⟩ := hinv.shape j x hj
  simp only [tval, zero_add, accepts_owes _ _ hacc]
  exact owes_nonneg ph

theorem owes_le_counter {pf : ProxyFunc} {s : State} (hinv : Inv pf s) {i : Nat} {t : Thread}
    (ht : s.threads[i]? = some t) {ph : Phase} (hacc : Accepts pf i ph t.prog) :
    ph.owes ≤ s.counter := by
  rw [hinv.counter, tsum]
  have h := single_le_sum_map (tval_owe_of_shape hinv) (List.mem_iff_getElem?.mpr ⟨i, ht⟩)
  simpa only [tval, zero_add, accepts_owes _ _ hacc] using h

theorem returned_of_counter_zero {pf : ProxyFunc} {s : State} (hinv : Inv pf s)
    (h0 : s.counter = 0) {j : Nat} {x : Thread} (hx : s.threads[j]? = some x) (hj : j ≠ 0) :
    x.prog = [] := by
  obtain ⟨ph, hok, hacc⟩ := hinv.shape j x hx
  have h1 := owes_le_counter hinv hx hacc
  have h2 := owes_nonneg ph
  have hk : x.kind ≠ Kind.main := fun hc => hj ((hinv.mainAt j x hx).mp hc)
  have hph : ph = Phase.fin := by
    cases ph <;> simp [Phase.owes] at h1 h2 <;> try omega
    · cases hxk : x.kind <;> simp_all [phaseOK]
    · rfl
  subst hph
  exact accepts_fin hacc

theorem inv_init (pf : ProxyFunc) (p0 : List Action) (h : Accepts pf 0 Phase.mLoop p0) :
    Inv pf (init p0) where
  shape := by
    intro i t ht
    cases i with
    | zero =>
      simp only [init, List.getElem?_cons_zero, Option.some.injEq] at ht
      subst ht
      exact ⟨Phase.mLoop, rfl, h⟩
    | succ i => simp [init] at ht
  mainAt := by
    intro i t ht
    cases i with
    | zero =>
      simp only [init, List.getElem?_cons_zero, Option.some.injEq] at ht
      subst ht
      simp
    | succ i => simp [init] at ht
  nonempty := by simp [init]
  counter := by simp [init, tsum, tval, accepts_owes _ _ h, Phase.owes]
  nopanic := rfl
  clients := by intro c hc; simp [init] at hc
  nodup := by simp [init]
  batchAddr := by
    intro i t b a ht hk
    cases i with
    | zero =>
      simp only [init, List.getElem?_cons_zero, Option.some.injEq] at ht
      subst ht
      cases hk
    | succ i => simp [init] at ht
  reqClient := by
    intro i t u c ht hk
    cases i with
    | zero =>
      simp only [init, List.getElem?_cons_zero, Option.some.injEq] at ht
      subst ht
      cases hk
    | succ i => simp [init] at ht
  returned := by
    rintro ⟨t, ht, hp⟩
    simp only [init, List.getElem?_cons_zero, Option.some.injEq] at ht
    subst ht
    simp only at hp
    subst hp
    simp [Accepts] at h
  noexit := rfl

theorem inv_step {pf : ProxyFunc} {world : Nat → Env} {s s1 : State} {i : Nat}
    (hinv : Inv pf s) (h : step world s i = some s1) : Inv pf s1 := by
  have hcons := conserve_owe world [i] s s1 (by simp [run, h])
  obtain ⟨t, a, rest, ht, hprog, hpan, hwait, rfl⟩ := step_eq_some h
  obtain ⟨ph, hok, hacc⟩ := hinv.shape i t ht
  rw [hprog] at hacc
  obtain ⟨ph1, hnext, hacc1⟩ := hacc
  have hi : i < s.threads.length := by
    rcases Nat.lt_or_ge i s.threads.length with hlt | hge
    · exact hlt
    · rw [List.getElem?_eq_none hge] at ht; cases ht
  have hsp := spawned_length_le world s.threads.length a
  have hok1 := nextPhase_phaseOK hok hnext
  have hmem : t ∈ s.threads := List.mem_iff_getElem?.mpr ⟨i, ht⟩
  refine
    { shape := ?_, mainAt := ?_, nonempty := ?_, counter := ?_, nopanic := ?_,
      clients := ?_, nodup := ?_, batchAddr := ?_, reqClient := ?_, returned := ?_,
      noexit := ?_ }
  · -- shape
    intro j y hy
    rcases getElem?_set_append hsp hi hy with ⟨rfl, rfl⟩ | ⟨-, hold⟩ | ⟨rfl, hnew⟩
    · exact ⟨ph1, hok1, hacc1⟩
    · exact hinv.shape j y hold
    · cases a <;> simp [spawned] at hnew
      · rename_i b pf1
        subst hnew
        have hpf : pf1 = pf := by
          cases ph <;> simp [nextPhase, Action.isQuiet] at hnext
          exact hnext.1
        subst hpf
        exact ⟨Phase.bInit, rfl, accepts_sendBatchRequests _ _ _⟩
      · subst hnew
        exact ⟨Phase.rRun, rfl, accepts_sendRequest _ _ _ _ _⟩
  · -- mainAt
    intro j y hy
    rcases getElem?_set_append hsp hi hy with ⟨rfl, rfl⟩ | ⟨-, hold⟩ | ⟨rfl, hnew⟩
    · exact hinv.mainAt _ t ht
    · exact hinv.mainAt j y hold
    · cases a <;> simp [spawned] at hnew <;> subst hnew <;>
        exact ⟨fun hc => (by cases hc), fun hc => (by omega)⟩
  · -- nonempty
    intro hc
    have := congrArg List.length hc
    simp only [List.length_append, List.length_set, List.length_nil] at this
    omega
  · -- counter
    have h0 := hinv.counter
    simp only at hcons ⊢
    omega
  · -- nopanic
    cases a <;> simp [exec, hpan, hinv.nopanic]
    have hacc0 : Accepts pf i ph t.prog := by
      rw [hprog]; exact ⟨ph1, hnext, hacc1⟩
    have h1 := owes_le_counter hinv ht hacc0
    cases ph <;> simp [nextPhase, Action.isQuiet] at hnext <;> simp [Phase.owes] at h1 <;> omega
  · -- clients
    have hold : ∀ c ∈ s.clients,
        c = { addr := c.addr, proxy := pf, insecureSkipVerify := true } ∧
        ∃ y, (s.threads.set i { kind := t.kind, prog := rest }
                ++ spawned world s.threads.length a)[c.addr]? = some y ∧
          y.kind.isBatch = true ∧ ∀ c1, Action.newClient c1 ∉ y.prog := by
      intro c hc
      obtain ⟨h1, y, hy, hyk, hyn⟩ := hinv.clients c hc
      refine ⟨h1, ?_⟩
      have hlt : c.addr < s.threads.length := by
        rcases Nat.lt_or_ge c.addr s.threads.length with hlt | hge
        · exact hlt
        · rw [List.getElem?_eq_none hge] at hy; cases hy
      rw [List.getElem?_append_left (by simpa using hlt), List.getElem?_set]
      by_cases hci : i = c.addr
      · rw [if_pos hci]
        simp only [hi, if_true]
        rw [← hci, ht] at hy
        cases hy
        refine ⟨_, rfl, hyk, ?_⟩
        intro c1 hc1
        exact hyn c1 (by rw [hprog]; exact List.mem_cons_of_mem _ hc1)
      · rw [if_neg hci]
        exact ⟨y, hy, hyk, hyn⟩
    cases a <;> try (simpa [exec] using hold)
    rename_i c0
    intro c hc
    simp only [exec, List.mem_append, List.mem_singleton] at hc
    rcases hc with hc | rfl
    · exact hold c hc
    · have hc0 : c = { addr := i, proxy := pf, insecureSkipVerify := true } ∧
          ph = Phase.bInit ∧ ph1 = Phase.bLoop := by
        cases ph <;> simp [nextPhase, Action.isQuiet] at hnext
        exact ⟨hnext.1, rfl, hnext.2.symm⟩
      obtain ⟨hc1, rfl, rfl⟩ := hc0
      refine ⟨by rw [hc1], ?_⟩
      have haddr : c.addr = i := by rw [hc1]
      rw [haddr, List.getElem?_append_left (by simpa using hi), List.getElem?_set]
      simp only [hi, if_true]
      refine ⟨_, rfl, ?_, accepts_no_newClient _ _ hacc1 (by decide)⟩
      cases hk : t.kind <;> simp_all [phaseOK, Kind.isBatch]
  · -- nodup
    cases a <;> try (simpa [exec] using hinv.nodup)
    rename_i c0
    simp only [exec, List.map_append, List.map_cons, List.map_nil]
    rw [List.nodup_append]
    refine ⟨hinv.nodup, by simp, ?_⟩
    have hc0 : c0.addr = i := by
      cases ph <;> simp [nextPhase, Action.isQuiet] at hnext
      rw [hnext.1]
    intro x hx1 hx2
    simp only [List.mem_singleton] at hx2
    subst hx2
    obtain ⟨c, hc, hca⟩ := List.mem_map.mp hx1
    obtain ⟨-, y, hy, -, hyn⟩ := hinv.clients c hc
    rw [hca, hc0, ht] at hy
    cases hy
    exact hyn c0 (by rw [hprog]; exact List.mem_cons_self _ _)
  · -- batchAddr
    intro j y b a1 hy hk
    rcases getElem?_set_append hsp hi hy with ⟨rfl, rfl⟩ | ⟨-, hold⟩ | ⟨rfl, hnew⟩
    · obtain ⟨h1, h2⟩ := hinv.batchAddr _ t b a1 ht hk
      refine ⟨h1, fun u hu => h2 u ?_⟩
      rw [hprog]
      exact requestedUrls_tail a hu
    · exact hinv.batchAddr j y b a1 hold hk
    · cases a <;> simp [spawned] at hnew
      · subst hnew
        simp only [Kind.batch.injEq] at hk
        obtain ⟨rfl, rfl⟩ := hk
        refine ⟨rfl, fun u hu => ?_⟩
        rwa [requestedUrls_sendBatchRequests] at hu
      · subst hnew
        cases hk
  · -- reqClient
    have hkeep : ∀ (c : Client) (tb : Thread) (b : List String),
        s.threads[c.addr]? = some tb → tb.kind = Kind.batch b c.addr →
        ∃ tb1, (s.threads.set i { kind := t.kind, prog := rest }
                ++ spawned world s.threads.length a)[c.addr]? = some tb1 ∧
          tb1.kind = Kind.batch b c.addr := by
      intro c tb b htb hkb
      have hlt : c.addr < s.threads.length := by
        rcases Nat.lt_or_ge c.addr s.threads.length with hlt | hge
        · exact hlt
        · rw [List.getElem?_eq_none hge] at htb; cases htb
      rw [List.getElem?_append_left (by simpa using hlt), List.getElem?_set]
      by_cases hci : i = c.addr
      · rw [if_pos hci]
        simp only [hi, if_true]
        rw [← hci, ht] at htb
        cases htb
        exact ⟨_, rfl, hkb⟩
      · rw [if_neg hci]
        exact ⟨tb, htb, hkb⟩
    intro j y u c hy hk
    rcases getElem?_set_append hsp hi hy with ⟨rfl, rfl⟩ | ⟨-, hold⟩ | ⟨rfl, hnew⟩
    · obtain ⟨h1, tb, b, h2, h3, h4⟩ := hinv.reqClient _ t u c ht hk
      obtain ⟨tb1, h5, h6⟩ := hkeep c tb b h2 h3
      exact ⟨h1, tb1, b, h5, h6, h4⟩
    · obtain ⟨h1, tb, b, h2, h3, h4⟩ := hinv.reqClient j y u c hold hk
      obtain ⟨tb1, h5, h6⟩ := hkeep c tb b h2 h3
      exact ⟨h1, tb1, b, h5, h6, h4⟩
    · cases a <;> simp [spawned] at hnew
      · subst hnew
        cases hk
      · rename_i u1 c1
        subst hnew
        simp only [Kind.request.injEq] at hk
        obtain ⟨rfl, rfl⟩ := hk
        have hc1 : c1 = { addr := i, proxy := pf, insecureSkipVerify := true } ∧
            ph = Phase.bGo := by
          cases ph <;> simp [nextPhase, Action.isQuiet] at hnext
          exact ⟨hnext.1, rfl⟩
        obtain ⟨hc2, rfl⟩ := hc1
        have hkb : ∃ b a1, t.kind = Kind.batch b a1 := by
          cases hk : t.kind <;> simp_all [phaseOK]
        obtain ⟨b, a1, hkb⟩ := hkb
        obtain ⟨rfl, hub⟩ := hinv.batchAddr i t b a1 ht hkb
        have haddr : c1.addr = a1 := by rw [hc2]
        refine ⟨by rw [hc2], ?_⟩
        obtain ⟨tb1, h5, h6⟩ := hkeep c1 t b (by rw [haddr]; exact ht) (by rw [haddr]; exact hkb)
        refine ⟨tb1, b, h5, h6, hub u1 ?_⟩
        rw [hprog]
        simp [requestedUrls]
  · -- returned
    rintro ⟨t0, ht0, hp0⟩
    rcases getElem?_set_append hsp hi ht0 with ⟨hi0, rfl⟩ | ⟨-, hold⟩ | ⟨hlen, -⟩
    · simp only at hp0
      subst hp0
      simp only [Accepts] at hacc1
      subst hacc1
      have hmain : t.kind = Kind.main := (hinv.mainAt i t ht).mpr hi0.symm
      have ha : a = Action.wait := by
        rw [hmain] at hok
        cases ph <;> simp [phaseOK] at hok <;> cases a <;>
          simp [nextPhase, Action.isQuiet] at hnext
        rfl
      subst ha
      have hc0 := hwait rfl
      intro y hy
      obtain ⟨j, hj⟩ := List.getElem?_of_mem hy
      rcases getElem?_set_append hsp hi hj with ⟨-, rfl⟩ | ⟨hne, hold⟩ | ⟨-, hnew⟩
      · rfl
      · exact returned_of_counter_zero hinv hc0 hold (by omega)
      · simp [spawned] at hnew
    · have hall := hinv.returned ⟨t0, hold, hp0⟩ t hmem
      rw [hprog] at hall
      cases hall
    · omega
  · -- noexit
    cases a <;> simp [exec, hinv.noexit]
    cases ph <;> simp [nextPhase, Action.isQuiet] at hnext

theorem inv_run {pf : ProxyFunc} {world : Nat → Env} (sched : List Nat) (s s1 : State)
    (hinv : Inv pf s) (h : run world s sched = some s1) : Inv pf s1 :=
  run_invariant (Inv pf) (fun _ _ _ hx hstep => inv_step hx hstep) sched s s1 hinv h

/-! ## Totals of the dispatch loop -/

theorem mainLoop_eq_flatMap (urls : List String) (pf : ProxyFunc) :
    ∀ (n i : Nat), urls.length - i ≤ n →
      mainLoop urls pf i =
        (dispatchedBatches (mainLoop urls pf i)).flatMap
          (fun b => [Action.add, Action.goBatch b pf]) := by
  intro n
  induction n with
  | zero =>
    intro i h
    rw [mainLoop_unfold, if_neg (by omega)]
    rfl
  | succ n ih =>
    intro i h
    rw [mainLoop_unfold]
    by_cases h1 : i < urls.length
    · rw [if_pos h1]
      simp only [dispatchedBatches, List.flatMap_cons, List.cons_append, List.nil_append]
      rw [← ih (i + 20) (by omega)]
    · rw [if_neg h1]
      rfl

theorem wsum_flatMap_batches {M : Type} [AddCommMonoid M] (w : Action → M) (pf : ProxyFunc)
    (l : List (List String)) :
    wsum w (l.flatMap (fun b => [Action.add, Action.goBatch b pf]))
      = (l.map (fun b => w Action.add + w (Action.goBatch b pf))).sum := by
  induction l with
  | nil => rfl
  | cons b l ih =>
    simp only [List.flatMap_cons, wsum_append, ih, List.map_cons, List.sum_cons]
    simp [wsum, add_assoc]

theorem wsum_dispatch {M : Type} [AddCommMonoid M] (w : Action → M) (urls : List String)
    (pf : ProxyFunc) :
    wsum w (dispatch urls pf)
      = ((dispatchedBatches (dispatch urls pf)).map
          (fun b => w Action.add + w (Action.goBatch b pf))).sum + w Action.wait := by
  have h1 : dispatchedBatches (dispatch urls pf) = dispatchedBatches (mainLoop urls pf 0) := by
    simp [dispatch, dispatchedBatches_append, dispatchedBatches]
  rw [h1, dispatch, wsum_append, ← wsum_flatMap_batches,
    ← mainLoop_eq_flatMap urls pf urls.length 0 (by omega)]
  simp [wsum]

theorem dispatchedBatches_dispatch_length (urls : List String) (pf : ProxyFunc) :
    (dispatchedBatches (dispatch urls pf)).length = (urls.length + 19) / 20 := by
  simp [dispatch, dispatchedBatches_append, dispatchedBatches,
    dispatchedBatches_mainLoop_length]

theorem dispatchedBatches_dispatch_flatten (urls : List String) (pf : ProxyFunc) :
    (dispatchedBatches (dispatch urls pf)).flatten = urls := by
  simp [dispatch, dispatchedBatches_append, dispatchedBatches,
    flatten_dispatchedBatches_mainLoop urls pf urls.length 0 (by omega)]

theorem sum_map_length_flatten (l : List (List String)) :
    (l.map List.length).sum = l.flatten.length := by
  induction l with
  | nil => rfl
  | cons b l ih =>
    simp only [List.map_cons, List.sum_cons, List.flatten_cons, List.length_append, ih]

theorem sum_map_coe_flatten (l : List (List String)) :
    (l.map (fun b : List String => (b : Multiset String))).sum
      = (l.flatten : Multiset String) := by
  induction l with
  | nil => rfl
  | cons b l ih =>
    simp only [List.map_cons, List.sum_cons, List.flatten_cons, ih, Multiset.coe_add]

theorem wBatch_dispatch (urls : List String) (pf : ProxyFunc) :
    wsum wBatch (dispatch urls pf) = (urls.length + 19) / 20 := by
  rw [wsum_dispatch]
  simp [wBatch, dispatchedBatches_dispatch_length]

theorem wClient_dispatch (urls : List String) (pf : ProxyFunc) :
    wsum wClient (dispatch urls pf) = (urls.length + 19) / 20 := by
  rw [wsum_dispatch]
  simp [wClient, dispatchedBatches_dispatch_length]

theorem wReq_dispatch (urls : List String) (pf : ProxyFunc) :
    wsum wReq (dispatch urls pf) = urls.length := by
  rw [wsum_dispatch]
  simp only [wReq, zero_add, add_zero]
  rw [show (fun b : List String => b.length) = List.length from rfl, sum_map_length_flatten,
    dispatchedBatches_dispatch_flatten]

theorem wPrint_dispatch (urls : List String) (pf : ProxyFunc) :
    wsum wPrint (dispatch urls pf) = urls.length := by
  rw [wsum_dispatch]
  simp only [wPrint, zero_add, add_zero]
  rw [show (fun b : List String => b.length) = List.length from rfl, sum_map_length_flatten,
    dispatchedBatches_dispatch_flatten]

theorem wUrl_dispatch (urls : List String) (pf : ProxyFunc) :
    wsum wUrl (dispatch urls pf) = (urls : Multiset String) := by
  rw [wsum_dispatch]
  simp only [wUrl, zero_add, add_zero]
  rw [sum_map_coe_flatten, dispatchedBatches_dispatch_flatten]

theorem sum_map_add_const (l : List (List String)) (k : Nat) :
    (l.map (fun b => k + b.length)).sum = k * l.length + l.flatten.length := by
  induction l with
  | nil => rfl
  | cons b l ih =>
    simp only [List.map_cons, List.sum_cons, ih, List.length_cons, List.flatten_cons,
      List.length_append]
    rw [Nat.mul_succ]
    omega

theorem wAdd_dispatch (urls : List String) (pf : ProxyFunc) :
    wsum wAdd (dispatch urls pf) = urls.length + (urls.length + 19) / 20 := by
  rw [wsum_dispatch]
  simp only [wAdd, add_zero]
  rw [sum_map_add_const, dispatchedBatches_dispatch_flatten, dispatchedBatches_dispatch_length]
  omega

theorem wDone_dispatch (urls : List String) (pf : ProxyFunc) :
    wsum wDone (dispatch urls pf) = urls.length + (urls.length + 19) / 20 := by
  rw [wsum_dispatch]
  simp only [wDone, add_zero, zero_add]
  have h : (fun b : List String => b.length + 1) = (fun b => 1 + b.length) := by
    funext b; omega
  rw [h, sum_map_add_const, dispatchedBatches_dispatch_flatten,
    dispatchedBatches_dispatch_length]
  omega

/-! ## Counting threads -/

theorem tsum_of_no_weight {M : Type} [AddCommMonoid M] (k : Kind → M) (w : Action → M)
    (s : State) (h : ∀ t ∈ s.threads, wsum w t.prog = 0) :
    tsum k w s = (s.threads.map (fun t => k t.kind)).sum := by
  unfold tsum
  congr 1
  apply List.map_congr_left
  intro t ht
  simp [tval, h t ht]

theorem sum_kBatch (l : List Thread) :
    (l.map (fun t => kBatch t.kind)).sum = (l.filter (fun t => t.kind.isBatch)).length := by
  induction l with
  | nil => rfl
  | cons t l ih =>
    obtain ⟨k, p⟩ := t
    cases k <;> simp only [List.map_cons, List.sum_cons, List.filter_cons, ih] <;>
      simp [kBatch, Kind.isBatch]
    omega

theorem sum_kReq (l : List Thread) :
    (l.map (fun t => kReq t.kind)).sum = (l.filter (fun t => t.kind.isRequest)).length := by
  induction l with
  | nil => rfl
  | cons t l ih =>
    obtain ⟨k, p⟩ := t
    cases k <;> simp only [List.map_cons, List.sum_cons, List.filter_cons, ih] <;>
      simp [kReq, Kind.isRequest]
    omega

theorem sum_kUrl (l : List Thread) :
    (l.map (fun t => kUrl t.kind)).sum
      = ((l.filterMap (fun t => t.kind.url?) : List String) : Multiset String) := by
  induction l with
  | nil => rfl
  | cons t l ih =>
    obtain ⟨k, p⟩ := t
    cases k <;> simp only [List.map_cons, List.sum_cons, List.filterMap_cons, ih] <;>
      simp [kUrl, Kind.url?]

theorem tsum_init {M : Type} [AddCommMonoid M] (k : Kind → M) (w : Action → M)
    (p0 : List Action) : tsum k w (init p0) = k Kind.main + wsum w p0 := by
  simp [tsum, init, tval]

/-! ## States in which the tracker is at rest -/

theorem accepts_main_no_add {pf : ProxyFunc} {i : Nat} :
    ∀ (p : List Action) (ph : Phase), Accepts pf i ph p →
      ph = Phase.mLoop ∨ ph = Phase.fin → Action.add ∉ p →
      ∀ a ∈ p, a = Action.wait ∨ ∃ st text, a = Action.print st text := by
  intro p
  induction p with
  | nil => intro ph _ _ _ a ha; simp at ha
  | cons x rest ih =>
    intro ph h hph hadd a ha
    obtain ⟨ph1, h1, h2⟩ := h
    simp only [List.mem_cons, not_or] at hadd
    have hx : (x = Action.wait ∨ ∃ st text, x = Action.print st text) ∧
        (ph1 = Phase.mLoop ∨ ph1 = Phase.fin) := by
      rcases hph with rfl | rfl
      · cases x <;> simp [nextPhase] at h1
        · exact absurd rfl hadd.1
        · subst h1; simp
        · subst h1; simp
      · simp [nextPhase] at h1
    rcases List.mem_cons.mp ha with rfl | ha
    · exact hx.1
    · exact ih ph1 h2 hx.2 hadd.2 a ha

theorem atRest_progs {pf : ProxyFunc} {s : State} (h : AtRest pf s) :
    ∀ t ∈ s.threads, ∀ a ∈ t.prog, a = Action.wait ∨ ∃ st text, a = Action.print st text := by
  obtain ⟨hinv, h0, hreg⟩ := h
  intro t ht
  obtain ⟨j, hj⟩ := List.getElem?_of_mem ht
  by_cases hj0 : j = 0
  · subst hj0
    obtain ⟨ph, hok, hacc⟩ := hinv.shape 0 t hj
    have h1 := owes_le_counter hinv hj hacc
    have hk := (hinv.mainAt 0 t hj).mpr rfl
    have hph : ph = Phase.mLoop ∨ ph = Phase.fin := by
      rw [hk] at hok
      cases ph <;> simp [phaseOK] at hok <;> simp [Phase.owes] at h1 <;> first | omega | simp
    exact accepts_main_no_add _ _ hacc hph (hreg t hj)
  · rw [returned_of_counter_zero hinv h0 hj hj0]
    intro a ha
    simp at ha

theorem wsum_of_wait_print {M : Type} [AddCommMonoid M] (w : Action → M)
    (hw : w Action.wait = 0) (hp : ∀ st text, w (Action.print st text) = 0)
    {p : List Action}
    (h : ∀ a ∈ p, a = Action.wait ∨ ∃ st text, a = Action.print st text) :
    wsum w p = 0 := by
  induction p with
  | nil => rfl
  | cons a rest ih =>
    rw [wsum_cons, ih (fun x hx => h x (List.mem_cons_of_mem _ hx))]
    rcases h a (List.mem_cons_self _ _) with rfl | ⟨st, text, rfl⟩
    · simp [hw]
    · simp [hp]

theorem atRest_step {pf : ProxyFunc} {world : Nat → Env} {s s1 : State} {i : Nat}
    (h : AtRest pf s) (hstep : step world s i = some s1) : AtRest pf s1 := by
  have hinv1 := inv_step h.1 hstep
  have hprogs := atRest_progs h
  obtain ⟨hinv, h0, hreg⟩ := h
  obtain ⟨t, a, rest, ht, hprog, -, -, rfl⟩ := step_eq_some hstep
  have hi : i < s.threads.length := by
    rcases Nat.lt_or_ge i s.threads.length with hlt | hge
    · exact hlt
    · rw [List.getElem?_eq_none hge] at ht; cases ht
  have ha := hprogs t (List.mem_iff_getElem?.mpr ⟨i, ht⟩) a (by rw [hprog]; simp)
  refine ⟨hinv1, ?_, ?_⟩
  · rcases ha with rfl | ⟨st, text, rfl⟩ <;> simpa [exec] using h0
  · intro t0 ht0
    have hsp : spawned world s.threads.length a = [] := by
      rcases ha with rfl | ⟨st, text, rfl⟩ <;> rfl
    simp only [hsp, List.append_nil, List.getElem?_set] at ht0
    by_cases hi0 : i = 0
    · subst hi0
      simp only [if_true, hi, Option.some.injEq] at ht0
      subst ht0
      intro hc
      exact hreg t ht (by rw [hprog]; exact List.mem_cons_of_mem _ hc)
    · rw [if_neg hi0] at ht0
      exact hreg t0 ht0

theorem atRest_run {pf : ProxyFunc} {world : Nat → Env} (sched : List Nat) (s s1 : State)
    (h : AtRest pf s) (hrun : run world s sched = some s1) : AtRest pf s1 :=
  run_invariant (AtRest pf) (fun _ _ _ hx hstep => atRest_step hx hstep) sched s s1 h hrun

theorem completed_progs {s : State} (h : completed s) :
    ∀ t ∈ s.threads, ∀ a ∈ t.prog, a = Action.wait ∨ ∃ st text, a = Action.print st text := by
  intro t ht a ha
  rw [h t ht] at ha
  simp at ha

/-- What is known of a state of a run of `dispatch urls pf` in which every
thread has only `wg.Wait()` and writes left to do. -/
theorem units_of_quiet {pf : ProxyFunc} {world : Nat → Env} {urls : List String}
    {sched : List Nat} {s : State}
    (hrun : run world (init (dispatch urls pf)) sched = some s)
    (hq : ∀ t ∈ s.threads, ∀ a ∈ t.prog,
      a = Action.wait ∨ ∃ st text, a = Action.print st text) :
    (batchUnits s).length = (urls.length + 19) / 20 ∧
    (requestUnits s).length = urls.length ∧
    ((s.threads.filterMap (fun t => t.kind.url?) : List String) : Multiset String)
      = (urls : Multiset String) ∧
    s.adds = urls.length + (urls.length + 19) / 20 ∧
    s.dones = urls.length + (urls.length + 19) / 20 ∧
    s.clients.length = (urls.length + 19) / 20 := by
  have z : ∀ {M : Type} [AddCommMonoid M] (w : Action → M), w Action.wait = 0 →
      (∀ st text, w (Action.print st text) = 0) → ∀ t ∈ s.threads, wsum w t.prog = 0 :=
    fun w hw hp t ht => wsum_of_wait_print w hw hp (hq t ht)
  refine ⟨?_, ?_, ?_, ?_, ?_, ?_⟩
  · have h := conserve_batch world sched _ s hrun
    rw [tsum_init, wBatch_dispatch, tsum_of_no_weight _ _ s (z wBatch rfl (fun _ _ => rfl)),
      sum_kBatch] at h
    simpa [batchUnits, kBatch] using h
  · have h := conserve_req world sched _ s hrun
    rw [tsum_init, wReq_dispatch, tsum_of_no_weight _ _ s (z wReq rfl (fun _ _ => rfl)),
      sum_kReq] at h
    simpa [requestUnits, kReq] using h
  · have h := conserve_url world sched _ s hrun
    rw [tsum_init, wUrl_dispatch, tsum_of_no_weight _ _ s (z wUrl rfl (fun _ _ => rfl)),
      sum_kUrl] at h
    simpa [kUrl] using h
  · have h := conserve_add world sched _ s hrun
    rw [tsum_init, wAdd_dispatch, tsum_of_no_weight _ _ s (z wAdd rfl (fun _ _ => rfl))] at h
    simpa [init] using h
  · have h := conserve_done world sched _ s hrun
    rw [tsum_init, wDone_dispatch, tsum_of_no_weight _ _ s (z wDone rfl (fun _ _ => rfl))] at h
    simpa [init] using h
  · have h := conserve_client world sched _ s hrun
    rw [tsum_init, wClient_dispatch,
      tsum_of_no_weight _ _ s (z wClient rfl (fun _ _ => rfl))] at h
    simpa [init] using h

theorem inv_of_run {pf : ProxyFunc} {world : Nat → Env} {urls : List String}
    {sched : List Nat} {s : State}
    (hrun : run world (init (dispatch urls pf)) sched = some s) : Inv pf s :=
  inv_run sched _ s (inv_init pf _ (accepts_dispatch urls pf)) hrun

theorem counter_eq_unfinished {pf : ProxyFunc} {s : State} (hinv : Inv pf s) :
    s.counter = unfinishedBatches s + unfinishedRequests s := by
  rw [hinv.counter, tsum, unfinishedBatches, unfinishedRequests, ← List.sum_map_add]
  congr 1
  apply List.map_congr_left
  intro t ht
  obtain ⟨j, hj⟩ := List.getElem?_of_mem ht
  obtain ⟨ph, hok, hacc⟩ := hinv.shape j t hj
  rw [unfinished_of_accepts hok hacc]
  simp [tval, accepts_owes _ _ hacc]

/-! ## Output -/

theorem allStdout_sendRequest (env : Env) (u : String) (c : Client) :
    AllStdout (sendRequest env u c) := by
  intro st text h
  unfold sendRequest at h
  split at h
  · simp at h; exact h.1
  · dsimp only at h
    split at h
    · simp at h; exact h.1
    · split at h <;> simp at h <;> exact h.1

theorem allStdout_sendBatchRequests (b : List String) (pf : ProxyFunc) (n : Nat) :
    AllStdout (sendBatchRequests b pf n) := by
  have h : ∀ (c : Client) (l : List String) st text,
      Action.print st text ∉ batchLoop c l := by
    intro c l st text
    induction l with
    | nil => simp [batchLoop]
    | cons u rest ih => simp [batchLoop, ih]
  intro st text hm
  simp [sendBatchRequests, h] at hm

theorem allStdout_dispatch (urls : List String) (pf : ProxyFunc) :
    AllStdout (dispatch urls pf) := by
  intro st text hm
  have h2 := mainLoop_eq_flatMap urls pf urls.length 0 (by omega)
  rw [dispatch, h2] at hm
  simp at hm

theorem allStdout_mainProg (fs : FileSystem) (urlParse : String → Except String URL)
    (urlsFile proxyURL : String) : AllStdout (mainProg fs urlParse urlsFile proxyURL) := by
  intro st text hm
  unfold mainProg at hm
  split at hm
  · simp at hm; exact hm.1
  · split at hm
    · simp at hm; exact hm.1
    · rename_i urls _
      simp only [List.mem_append] at hm
      rcases hm with hm | hm
      · unfold getProxyFunc at hm
        split at hm
        · simp at hm
        · split at hm
          · simp at hm; exact hm.1
          · simp at hm
      · exact allStdout_dispatch _ _ st text hm

theorem outInv_step {world : Nat → Env} {s s1 : State} {i : Nat}
    (hinv : OutInv s) (h : step world s i = some s1) : OutInv s1 := by
  obtain ⟨t, a, rest, ht, hprog, -, -, rfl⟩ := step_eq_some h
  have hmem : t ∈ s.threads := List.mem_iff_getElem?.mpr ⟨i, ht⟩
  have ht1 := hinv.2 t hmem
  rw [hprog] at ht1
  constructor
  · intro e he
    cases a <;> try (exact hinv.1 e (by simpa [exec] using he))
    rename_i st text
    simp only [exec, List.mem_append, List.mem_singleton] at he
    rcases he with he | rfl
    · exact hinv.1 e he
    · exact ht1 st text (List.mem_cons_self _ _)
  · intro y hy
    simp only [List.mem_append] at hy
    rcases hy with hy | hy
    · rcases List.mem_or_eq_of_mem_set hy with hy | rfl
      · exact hinv.2 y hy
      · intro st text hm
        exact ht1 st text (List.mem_cons_of_mem _ hm)
    · cases a <;> simp [spawned] at hy
      · subst hy
        exact allStdout_sendBatchRequests _ _ _
      · subst hy
        exact allStdout_sendRequest _ _ _

theorem outInv_run {world : Nat → Env} (sched : List Nat) (s s1 : State)
    (hinv : OutInv s) (h : run world s sched = some s1) : OutInv s1 :=
  run_invariant OutInv (fun _ _ _ hx hstep => outInv_step hx hstep) sched s s1 hinv h

theorem outInv_init (p0 : List Action) (h : AllStdout p0) : OutInv (init p0) := by
  constructor
  · intro e he
    simp [init] at he
  · intro t ht
    simp only [init, List.mem_singleton] at ht
    subst ht
    exact h

theorem wPrint_mainProg (fs : FileSystem) (urlParse : String → Except String URL)
    (urlsFile proxyURL : String) (urls : List String) (h1 : urlsFile ≠ "")
    (h2 : readURLs fs urlsFile = Except.ok urls) :
    wsum wPrint (mainProg fs urlParse urlsFile proxyURL)
      = (getProxyFunc urlParse proxyURL).2.length + urls.length := by
  simp only [mainProg, h1, if_false, h2, wsum_append, wPrint_dispatch]
  congr 1
  unfold getProxyFunc
  split
  · rfl
  · split <;> simp [wsum, wPrint]

/-! ## Sample runs -/

theorem dispatch_urls21 (pf : ProxyFunc) :
    dispatch urls21 pf
      = [Action.add, Action.goBatch (List.replicate 20 "::") pf,
         Action.add, Action.goBatch ["::"] pf, Action.wait] := by
  simp [dispatch, mainLoop, slice, urls21]

theorem dispatch_sampleUrls (pf : ProxyFunc) :
    dispatch sampleUrls pf = [Action.add, Action.goBatch sampleUrls pf, Action.wait] := by
  simp [dispatch, mainLoop, slice, sampleUrls]

theorem main_sample :
    main sampleFlagParse sampleFS sampleUrlParse ["-w", "urls.txt"]
      = [Action.add, Action.goBatch ["::"] ProxyFunc.fromEnvironment, Action.wait] := by
  simp [main, sampleFlagParse, mainProg, readURLs, sampleFS, getProxyFunc, dispatch,
    mainLoop, slice]

theorem main_of_parsed {flagParse : List String → FlagOutcome} {fs : FileSystem}
    {urlParse : String → Except String URL} {args : List String} {w p : String}
    (h : flagParse args = FlagOutcome.parsed w p) :
    main flagParse fs urlParse args = mainProg fs urlParse w p := by
  simp [main, h]

theorem main_of_failed {flagParse : List String → FlagOutcome} {fs : FileSystem}
    {urlParse : String → Except String URL} {args : List String} {text : String}
    {status : Nat} (h : flagParse args = FlagOutcome.failed text status) :
    main flagParse fs urlParse args
      = [Action.print Stream.stderr text, Action.exit status] := by
  simp [main, h]

theorem newlines_append (a b : String) : newlines (a ++ b) = newlines a + newlines b := by
  simp [newlines, String.toList]

/-- The states of a run in which `flag.Parse()` rejects the command line: only
`main` exists; it has written nothing yet, or has written the text of the
package `flag` to standard error and then exits. -/
theorem flag_failure_states (world : Nat → Env) (text : String) (status : Nat)
    (sched : List Nat) (s : State)
    (hrun : run world (init [Action.print Stream.stderr text, Action.exit status]) sched
      = some s) :
    ∃ p, s.threads = [{ kind := Kind.main, prog := p }] ∧
      ((p = [Action.print Stream.stderr text, Action.exit status] ∧ s.out = [] ∧
          s.exited = none) ∨
       (p = [Action.exit status] ∧ s.out = [(Stream.stderr, text)] ∧ s.exited = none) ∨
       (p = [] ∧ s.out = [(Stream.stderr, text)] ∧ s.exited = some status)) := by
  refine run_invariant
    (fun x => ∃ p, x.threads = [{ kind := Kind.main, prog := p }] ∧
      ((p = [Action.print Stream.stderr text, Action.exit status] ∧ x.out = [] ∧
          x.exited = none) ∨
       (p = [Action.exit status] ∧ x.out = [(Stream.stderr, text)] ∧ x.exited = none) ∨
       (p = [] ∧ x.out = [(Stream.stderr, text)] ∧ x.exited = some status)))
    ?_ sched _ s ⟨_, rfl, Or.inl ⟨rfl, rfl, rfl⟩⟩ hrun
  intro x i x1 hx hstep
  obtain ⟨p, hth, hcases⟩ := hx
  obtain ⟨t, a, rest, ht, hprog, -, -, rfl⟩ := step_eq_some hstep
  rw [hth] at ht
  have hi : i = 0 := by
    cases i with
    | zero => rfl
    | succ j => simp at ht
  subst hi
  simp only [List.getElem?_cons_zero, Option.some.injEq] at ht
  subst ht
  simp only at hprog
  rcases hcases with ⟨hp, hout, hex⟩ | ⟨hp, hout, hex⟩ | ⟨hp, -, -⟩
  · rw [hp] at hprog
    obtain ⟨rfl, rfl⟩ := List.cons.inj hprog
    exact ⟨_, by simp [hth, spawned], Or.inr (Or.inl ⟨rfl, by simp [exec, hout],
      by simp [exec, hex]⟩)⟩
  · rw [hp] at hprog
    obtain ⟨rfl, rfl⟩ := List.cons.inj hprog
    exact ⟨_, by simp [hth, spawned], Or.inr (Or.inr ⟨rfl, by simp [exec, hout],
      by simp [exec]⟩)⟩
  · rw [hp] at hprog
    cases hprog

theorem sample_run_isSome :
    (run sampleWorld (init (dispatch sampleUrls ProxyFunc.nil)) sampleSchedule).isSome
      = true := by
  rw [dispatch_sampleUrls]
  decide

theorem sample_run_completed :
    completed ((run sampleWorld (init (dispatch sampleUrls ProxyFunc.nil))
      sampleSchedule).get sample_run_isSome) := by
  have h : ∀ (o : Option State) (ho : o.isSome = true),
      o.map isCompleted = some true → completed (o.get ho) := by
    intro o ho hc
    cases o with
    | none => cases ho
    | some x =>
      simp only [Option.map_some', Option.some.injEq, isCompleted, List.all_eq_true,
        List.isEmpty_iff] at hc
      exact hc
  apply h
  rw [dispatch_sampleUrls]
  decide

/-! ## Every run can be completed -/

theorem work_sendRequest (env : Env) (u : String) (c : Client) :
    wsum work (sendRequest env u c) ≤ 9 := by
  unfold sendRequest
  split
  · simp [wsum, work]
  · dsimp only
    split
    · simp [wsum, work]
    · split <;> simp [wsum, work]

theorem work_sendBatchRequests (b : List String) (pf : ProxyFunc) (n : Nat) :
    wsum work (sendBatchRequests b pf n) = 2 + 11 * b.length := by
  have h : ∀ (c : Client) (l : List String), wsum work (batchLoop c l) = 11 * l.length := by
    intro c l
    induction l with
    | nil => rfl
    | cons u rest ih => simp [batchLoop, wsum_cons, work, ih]; omega
  simp [sendBatchRequests, wsum_cons, wsum_append, h, work, wsum_nil]
  omega

theorem stepsLeft_step {world : Nat → Env} {s s1 : State} {i : Nat}
    (h : step world s i = some s1) : stepsLeft s1 < stepsLeft s := by
  obtain ⟨t, a, rest, ht, hprog, -, -, rfl⟩ := step_eq_some h
  have hset := sum_map_set (fun t => wsum work t.prog) s.threads i t
    { kind := t.kind, prog := rest } ht
  simp only [hprog, wsum_cons] at hset
  have hsp : ((spawned world s.threads.length a).map (fun t => wsum work t.prog)).sum
      < work a := by
    cases a <;> simp [spawned, work, work_sendBatchRequests]
    rename_i u c
    have := work_sendRequest (world s.threads.length) u c
    omega
  simp only [stepsLeft, List.map_append, List.sum_append]
  omega

theorem step_enabled {world : Nat → Env} {s : State} {i : Nat} {t : Thread} {a : Action}
    {rest : List Action} (hp : s.panicked = false) (he : s.exited = none)
    (ht : s.threads[i]? = some t)
    (hprog : t.prog = a :: rest) (hw : a = Action.wait → s.counter = 0) :
    ∃ s1, step world s i = some s1 := by
  unfold step
  simp only [hp, he, Option.isSome_none, Bool.false_eq_true, if_false, ht, hprog]
  by_cases hc : a = Action.wait ∧ s.counter ≠ 0
  · exact absurd (hw hc.1) hc.2
  · rw [if_neg hc]
    exact ⟨_, rfl⟩

theorem progress {pf : ProxyFunc} (world : Nat → Env) {s : State} (hinv : Inv pf s)
    (hnc : ¬ completed s) : ∃ i s1, step world s i = some s1 := by
  by_cases hother : ∃ j t, j ≠ 0 ∧ s.threads[j]? = some t ∧ t.prog ≠ []
  · obtain ⟨j, t, hj, ht, hne⟩ := hother
    obtain ⟨a, rest, hprog⟩ := List.exists_cons_of_ne_nil hne
    refine ⟨j, step_enabled hinv.nopanic hinv.noexit ht hprog ?_⟩
    intro ha
    subst ha
    exfalso
    obtain ⟨ph, hok, hacc⟩ := hinv.shape j t ht
    rw [hprog] at hacc
    obtain ⟨ph1, hnext, -⟩ := hacc
    have hk : t.kind ≠ Kind.main := fun hc => hj ((hinv.mainAt j t ht).mp hc)
    cases ph <;> simp [nextPhase, Action.isQuiet] at hnext
    cases hkk : t.kind <;> simp_all [phaseOK]
  · have hall : ∀ j t, j ≠ 0 → s.threads[j]? = some t → t.prog = [] := by
      intro j t hj ht
      by_contra hne
      exact hother ⟨j, t, hj, ht, hne⟩
    obtain ⟨t0, l, hl⟩ := List.exists_cons_of_ne_nil hinv.nonempty
    have ht0 : s.threads[0]? = some t0 := by rw [hl]; simp
    have hne : t0.prog ≠ [] := by
      intro hc
      apply hnc
      intro t ht
      obtain ⟨j, hj⟩ := List.getElem?_of_mem ht
      by_cases hj0 : j = 0
      · subst hj0
        rw [ht0] at hj
        cases hj
        exact hc
      · exact hall j t hj0 hj
    obtain ⟨a, rest, hprog⟩ := List.exists_cons_of_ne_nil hne
    refine ⟨0, step_enabled hinv.nopanic hinv.noexit ht0 hprog ?_⟩
    intro ha
    subst ha
    obtain ⟨ph, hok, hacc⟩ := hinv.shape 0 t0 ht0
    have hk := (hinv.mainAt 0 t0 ht0).mpr rfl
    have hph : ph = Phase.mLoop := by
      rw [hprog] at hacc
      obtain ⟨ph1, hnext, -⟩ := hacc
      rw [hk] at hok
      cases ph <;> simp [phaseOK] at hok <;> simp [nextPhase] at hnext
      rfl
    subst hph
    rw [hinv.counter, tsum, hl]
    have hzero : ∀ x ∈ l, tval (fun _ => (0 : Int)) owe x = 0 := by
      intro x hx
      obtain ⟨j, hj⟩ := List.getElem?_of_mem hx
      have hx1 : s.threads[j + 1]? = some x := by rw [hl]; simpa using hj
      simp [tval, hall (j + 1) x (by omega) hx1, wsum_nil]
    rw [List.map_cons, List.sum_cons, List.map_congr_left hzero]
    simp [tval, accepts_owes _ _ hacc, Phase.owes]

theorem can_complete {pf : ProxyFunc} (world : Nat → Env) :
    ∀ (n : Nat) (s : State), Inv pf s → stepsLeft s ≤ n →
      ∃ sched s1, run world s sched = some s1 ∧ completed s1 := by
  intro n
  induction n with
  | zero =>
    intro s hinv hn
    by_cases hc : completed s
    · exact ⟨[], s, rfl, hc⟩
    · obtain ⟨i, s1, hstep⟩ := progress world hinv hc
      have := stepsLeft_step hstep
      omega
  | succ n ih =>
    intro s hinv hn
    by_cases hc : completed s
    · exact ⟨[], s, rfl, hc⟩
    · obtain ⟨i, s1, hstep⟩ := progress world hinv hc
      have hlt := stepsLeft_step hstep
      obtain ⟨sched, s2, hrun, hdone⟩ := ih s1 (inv_step hinv hstep) (by omega)
      exact ⟨i :: sched, s2, by simp [run, hstep, hrun], hdone⟩

/-! ## The claims -/

theorem dispatchedBatches_dispatch_get (urls : List String) (pf : ProxyFunc) (i : Nat) :
    (dispatchedBatches (dispatch urls pf))[i]? =
      if 20 * i < urls.length then
        some (slice urls (20 * i) (min (20 * (i + 1)) urls.length))
      else none := by
  have h := dispatchedBatches_mainLoop_get urls pf i 0
  simp only [zero_add] at h
  simpa [dispatch, dispatchedBatches_append, dispatchedBatches] using h

theorem dispatchedBatches_lengths_get (urls : List String) (pf : ProxyFunc) (i : Nat) :
    ((dispatchedBatches (dispatch urls pf)).map List.length)[i]? =
      if 20 * i < urls.length then some (min (20 * (i + 1)) urls.length - 20 * i)
      else none := by
  rw [List.getElem?_map, dispatchedBatches_dispatch_get]
  split
  · simp [length_slice]
  · rfl

/-- C1: for a URL list of length `N` the dispatch loop of `main` hands out
`ceil(N/20)` batches, batch `i` being the slice of the list over
`[20*i, min(20*(i+1), N))`; 45 URLs give batches of sizes 20, 20, 5; 20 URLs
give one batch of 20; no URL gives no batch. -/
theorem batch_partition (urls : List String) (pf : ProxyFunc) :
    (dispatchedBatches (dispatch urls pf)).length = (urls.length + 19) / 20 ∧
    (∀ i, i < (urls.length + 19) / 20 →
      (dispatchedBatches (dispatch urls pf))[i]?
        = some (slice urls (20 * i) (min (20 * (i + 1)) urls.length))) ∧
    (urls.length = 45 →
      (dispatchedBatches (dispatch urls pf)).map List.length = [20, 20, 5]) ∧
    (urls.length = 20 →
      (dispatchedBatches (dispatch urls pf)).map List.length = [20]) ∧
    (urls.length = 0 → dispatchedBatches (dispatch urls pf) = []) := by
  refine ⟨dispatchedBatches_dispatch_length urls pf, ?_, ?_, ?_, ?_⟩
  · intro i hi
    rw [dispatchedBatches_dispatch_get, if_pos (by omega)]
  · intro h
    apply List.ext_getElem?
    intro i
    rw [dispatchedBatches_lengths_get, h]
    match i with
    | 0 => rfl
    | 1 => rfl
    | 2 => rfl
    | (j + 3) =>
      rw [if_neg (by omega)]
      simp
  · intro h
    apply List.ext_getElem?
    intro i
    rw [dispatchedBatches_lengths_get, h]
    match i with
    | 0 => rfl
    | (j + 1) =>
      rw [if_neg (by omega)]
      simp
  · intro h
    have h1 := dispatchedBatches_dispatch_length urls pf
    rw [h] at h1
    exact List.length_eq_zero.mp h1

/-- Witness of C1 on a list of 45 URLs. -/
theorem batch_partition_witness :
    urls45.length = 45 ∧
    (dispatchedBatches (dispatch urls45 ProxyFunc.nil)).map List.length = [20, 20, 5] ∧
    (dispatchedBatches (dispatch urls45 ProxyFunc.nil))[2]?
      = some (slice urls45 40 (min 60 urls45.length)) :=
  ⟨by decide, (batch_partition urls45 ProxyFunc.nil).2.2.1 (by decide),
    (batch_partition urls45 ProxyFunc.nil).2.1 2 (by decide)⟩

/-- C2: the batches handed to `sendBatchRequests`, concatenated in dispatch
order, are the input list; batch `i` is the slice that starts where batch
`i-1` ends, is not empty and has at most 20 entries; each batch unit hands its
URLs, in order and unchanged, to `sendRequest`, which passes its URL unchanged
to `http.NewRequest`. -/
theorem batches_cover_list (urls : List String) (pf : ProxyFunc) :
    (dispatchedBatches (dispatch urls pf)).flatten = urls ∧
    (∀ i b, (dispatchedBatches (dispatch urls pf))[i]? = some b →
      b = slice urls (20 * i) (20 * i + b.length) ∧ 0 < b.length ∧ b.length ≤ 20) ∧
    (∀ b addr, requestedUrls (sendBatchRequests b pf addr) = b) ∧
    (∀ addr, (dispatchedBatches (dispatch urls pf)).flatMap
        (fun b => requestedUrls (sendBatchRequests b pf addr)) = urls) ∧
    (∀ env u c, (sendRequest env u c).head? = some (Action.newRequest u)) := by
  refine ⟨dispatchedBatches_dispatch_flatten urls pf, ?_,
    fun b addr => requestedUrls_sendBatchRequests b pf addr, ?_, ?_⟩
  · intro i b hb
    rw [dispatchedBatches_dispatch_get] at hb
    split at hb
    · rename_i hlt
      have hb1 := (Option.some.inj hb).symm
      have hlen : b.length = min (20 * (i + 1)) urls.length - 20 * i := by
        rw [hb1, length_slice]
        simp
      refine ⟨?_, by omega, by omega⟩
      have : 20 * i + b.length = min (20 * (i + 1)) urls.length := by omega
      rw [this]
      exact hb1
    · cases hb
  · intro addr
    have h : (fun b => requestedUrls (sendBatchRequests b pf addr)) = (fun b => b) := by
      funext b
      exact requestedUrls_sendBatchRequests b pf addr
    rw [h]
    have h2 := dispatchedBatches_dispatch_flatten urls pf
    simpa [List.flatMap, List.flatten] using h2
  · intro env u c
    unfold sendRequest
    split
    · rfl
    · dsimp only
      split
      · rfl
      · split <;> rfl

/-- Witness of C2 on a list of 45 URLs. -/
theorem batches_cover_list_witness :
    (dispatchedBatches (dispatch urls45 ProxyFunc.nil))[1]?
        = some (List.replicate 20 "http://a") ∧
    List.replicate 20 "http://a" = slice urls45 (20 * 1) (20 * 1 + 20) :=
  have h : (dispatchedBatches (dispatch urls45 ProxyFunc.nil))[1]?
      = some (List.replicate 20 "http://a") := by
    simp [dispatch, mainLoop, dispatchedBatches, slice, urls45]
  ⟨h, by simpa using ((batches_cover_list urls45 ProxyFunc.nil).2.1 1 _ h).1⟩

/-- C6: when a stage of `sendRequest` fails, the unit writes one line, the
diagnostic of that stage naming the URL, attempts no later stage (no
`client.Do` after a failed `http.NewRequest`, no body read after a failed
`client.Do`, no `extractTitle` after any failure), writes no result line, and
returns through its deferred calls, the last of which is `wg.Done()`. -/
theorem sendRequest_failure_isolated (env : Env) (url : String) (client : Client) :
    (∀ err, env.newRequest url = Except.error err →
      printed (sendRequest env url client)
        = [(Stream.stdout, "Error creating request for URL " ++ url ++ ": " ++ err ++ "\n")] ∧
      (∀ c r, Action.clientDo c r ∉ sendRequest env url client) ∧
      Action.readAll ∉ sendRequest env url client ∧
      Action.extractTitle ∉ sendRequest env url client ∧
      (sendRequest env url client).getLast? = some Action.done) ∧
    (∀ req err, env.newRequest url = Except.ok req →
      env.clientDo client { req with timeout := some 10 } = Except.error err →
      printed (sendRequest env url client)
        = [(Stream.stdout, "Error sending request for URL " ++ url ++ ": " ++ err ++ "\n")] ∧
      Action.readAll ∉ sendRequest env url client ∧
      Action.extractTitle ∉ sendRequest env url client ∧
      (sendRequest env url client).getLast? = some Action.done) ∧
    (∀ req resp err, env.newRequest url = Except.ok req →
      env.clientDo client { req with timeout := some 10 } = Except.ok resp →
      resp.body = Except.error err →
      printed (sendRequest env url client)
        = [(Stream.stdout,
            "Error reading response body for URL " ++ url ++ ": " ++ err ++ "\n")] ∧
      Action.extractTitle ∉ sendRequest env url client ∧
      (sendRequest env url client).getLast? = some Action.done) := by
  refine ⟨?_, ?_, ?_⟩
  · intro err h
    simp [sendRequest, h, printed]
  · intro req err h1 h2
    simp [sendRequest, h1, h2, printed]
  · intro req resp err h1 h2 h3
    simp [sendRequest, h1, h2, h3, printed]

/-- Witness of C6: the three failures in the sample world. -/
theorem sendRequest_failure_isolated_witness :
    printed (sendRequest sampleEnv "::" { addr := 1, proxy := ProxyFunc.nil, insecureSkipVerify := true })
      = [(Stream.stdout, "Error creating request for URL " ++ "::" ++ ": "
          ++ "missing protocol scheme" ++ "\n")] ∧
    printed (sendRequest sampleEnv "http://down"
        { addr := 1, proxy := ProxyFunc.nil, insecureSkipVerify := true })
      = [(Stream.stdout, "Error sending request for URL " ++ "http://down" ++ ": "
          ++ "connection refused" ++ "\n")] ∧
    Action.extractTitle ∉ sendRequest sampleEnv "http://cut"
        { addr := 1, proxy := ProxyFunc.nil, insecureSkipVerify := true } :=
  ⟨((sendRequest_failure_isolated sampleEnv "::" _).1 "missing protocol scheme"
      (by rfl)).1,
   ((sendRequest_failure_isolated sampleEnv "http://down" _).2.1
      { method := "GET", url := "http://down", timeout := none } "connection refused"
      (by rfl) (by rfl)).1,
   ((sendRequest_failure_isolated sampleEnv "http://cut" _).2.2
      { method := "GET", url := "http://cut", timeout := none }
      { body := Except.error "unexpected EOF" } "unexpected EOF"
      (by rfl) (by rfl) (by rfl)).2.1⟩

/-- C8: `extractTitle` always returns a string: the empty string when parsing
fails, `"Example"` when the only element named `title` of the parsed document
is `<title>Example</title>`, the empty string when the parsed document has no
element named `title`; and the walk `getTitle` ends, after at most as many
calls as the tree has nodes. -/
theorem extractTitle_total (parse : List Nat → Except String Node) (body : List Nat) :
    (∀ err, parse body = Except.error err → extractTitle parse body = "") ∧
    (∀ doc, parse body = Except.ok doc → titleElements doc = [exampleTitle] →
      extractTitle parse body = "Example") ∧
    (∀ doc, parse body = Except.ok doc → titleElements doc = [] →
      extractTitle parse body = "") ∧
    (∀ doc : Node, 1 ≤ getTitleCalls doc ∧ getTitleCalls doc ≤ doc.size) := by
  refine ⟨?_, ?_, ?_, getTitleCalls_le⟩
  · intro err h
    simp [extractTitle, h]
  · intro doc h ht
    simp [extractTitle, h, getTitle_of_only_title doc ht]
  · intro doc h ht
    simp [extractTitle, h, getTitle_of_no_title doc ht]

/-- Witness of C8: a document with the title `Example` and one without title. -/
theorem extractTitle_total_witness :
    extractTitle (fun _ => Except.ok sampleDoc) [] = "Example" ∧
    extractTitle (fun _ => Except.ok untitledDoc) [] = "" ∧
    extractTitle (fun _ => Except.error "unexpected EOF") [] = "" :=
  ⟨(extractTitle_total (fun _ => Except.ok sampleDoc) []).2.1 sampleDoc rfl
      (by simp [sampleDoc, titleElements, titleElementsFrom, exampleTitle]),
   (extractTitle_total (fun _ => Except.ok untitledDoc) []).2.2.1 untitledDoc rfl
      (by simp [untitledDoc, titleElements, titleElementsFrom]),
   (extractTitle_total (fun _ => Except.error "unexpected EOF") []).1 "unexpected EOF" rfl⟩

/-- C9: `getProxyFunc` always returns: the environment policy for the empty
string; for a string that `url.Parse` rejects, the nil proxy function after
one line that reports the parse error; for a string that parses, the fixed
proxy for the parsed URL.  In the second case `main` goes on to dispatch the
URLs with the nil proxy function. -/
theorem getProxyFunc_cases (urlParse : String → Except String URL) (proxyURL : String) :
    (proxyURL = "" → getProxyFunc urlParse proxyURL = (ProxyFunc.fromEnvironment, [])) ∧
    (∀ err, proxyURL ≠ "" → urlParse proxyURL = Except.error err →
      getProxyFunc urlParse proxyURL
        = (ProxyFunc.nil,
           [Action.print Stream.stdout ("Invalid proxy URL: " ++ err ++ "\n")]) ∧
      ∀ fs urlsFile urls, urlsFile ≠ "" → readURLs fs urlsFile = Except.ok urls →
        mainProg fs urlParse urlsFile proxyURL
          = Action.print Stream.stdout ("Invalid proxy URL: " ++ err ++ "\n")
              :: dispatch urls ProxyFunc.nil) ∧
    (∀ u, proxyURL ≠ "" → urlParse proxyURL = Except.ok u →
      getProxyFunc urlParse proxyURL = (ProxyFunc.proxyURL u, [])) := by
  refine ⟨?_, ?_, ?_⟩
  · intro h
    simp [getProxyFunc, h]
  · intro err h1 h2
    refine ⟨by simp [getProxyFunc, h1, h2], ?_⟩
    intro fs urlsFile urls h3 h4
    simp [mainProg, h3, h4, getProxyFunc, h1, h2]
  · intro u h1 h2
    simp [getProxyFunc, h1, h2]

/-- Witness of C9: the proxy string `"::::"`, which the sample `url.Parse`
rejects, and a proxy string that parses. -/
theorem getProxyFunc_cases_witness :
    getProxyFunc sampleUrlParse "::::"
      = (ProxyFunc.nil,
         [Action.print Stream.stdout
            ("Invalid proxy URL: " ++ "missing protocol scheme" ++ "\n")]) ∧
    getProxyFunc sampleUrlParse "http://host:8080"
      = (ProxyFunc.proxyURL { raw := "http://host:8080" }, []) ∧
    getProxyFunc sampleUrlParse "" = (ProxyFunc.fromEnvironment, []) :=
  ⟨((getProxyFunc_cases sampleUrlParse "::::").2.1 "missing protocol scheme"
      (by decide) (by rfl)).1,
   (getProxyFunc_cases sampleUrlParse "http://host:8080").2.2 { raw := "http://host:8080" }
      (by decide) (by rfl),
   (getProxyFunc_cases sampleUrlParse "").1 rfl⟩

theorem allUnitsDone_of_quiet {pf : ProxyFunc} {world : Nat → Env} {urls : List String}
    {sched : List Nat} {s : State}
    (hrun : run world (init (dispatch urls pf)) sched = some s)
    (hq : ∀ t ∈ s.threads, ∀ a ∈ t.prog,
      a = Action.wait ∨ ∃ st text, a = Action.print st text)
    (hret : ∀ t ∈ s.threads, t.kind ≠ Kind.main → t.prog = []) :
    allUnitsDone urls s := by
  obtain ⟨h1, h2, h3, -, -, -⟩ := units_of_quiet hrun hq
  exact ⟨h1, h2, Multiset.coe_eq_coe.mp h3, hret⟩

theorem allUnitsDone_of_atRest {pf : ProxyFunc} {world : Nat → Env} {urls : List String}
    {sched : List Nat} {s : State}
    (hrun : run world (init (dispatch urls pf)) sched = some s)
    (hreg : registeredLast s) (h0 : s.counter = 0) : allUnitsDone urls s := by
  have hinv := inv_of_run hrun
  refine allUnitsDone_of_quiet hrun (atRest_progs ⟨hinv, h0, hreg⟩) ?_
  intro t ht hk
  obtain ⟨j, hj⟩ := List.getElem?_of_mem ht
  exact returned_of_counter_zero hinv h0 hj (fun hc => hk ((hinv.mainAt j t hj).mpr hc))

/-- C3: in every interleaving, whenever the count is zero after `main` has
registered its last batch, every batch unit and every per-URL unit has been
started and has returned; so it is when the `wg.Wait()` of `main` can return,
and when `main` has returned. -/
theorem wait_returns_after_all_units (world : Nat → Env) (urls : List String)
    (pf : ProxyFunc) (sched : List Nat) (s : State)
    (hrun : run world (init (dispatch urls pf)) sched = some s) :
    (registeredLast s → s.counter = 0 → allUnitsDone urls s) ∧
    (∀ t s1, s.threads[0]? = some t → t.prog.head? = some Action.wait →
      step world s 0 = some s1 → allUnitsDone urls s) ∧
    (mainReturned s → allUnitsDone urls s) := by
  have hinv := inv_of_run hrun
  refine ⟨allUnitsDone_of_atRest hrun, ?_, ?_⟩
  · intro t s1 ht hhead hstep
    obtain ⟨t1, a, rest, ht1, hprog, -, hwait, -⟩ := step_eq_some hstep
    rw [ht] at ht1
    cases ht1
    rw [hprog] at hhead
    simp only [List.head?_cons, Option.some.injEq] at hhead
    subst hhead
    obtain ⟨ph, hok, hacc⟩ := hinv.shape 0 t ht
    rw [hprog] at hacc
    obtain ⟨ph1, hnext, hacc1⟩ := hacc
    have hrest : rest = [] := by
      have hk := (hinv.mainAt 0 t ht).mpr rfl
      rw [hk] at hok
      cases ph <;> simp [phaseOK] at hok <;> simp [nextPhase] at hnext
      subst hnext
      exact accepts_fin hacc1
    refine allUnitsDone_of_atRest hrun ?_ (hwait rfl)
    intro t2 ht2
    rw [ht] at ht2
    cases ht2
    rw [hprog, hrest]
    simp
  · intro hret
    have hc := hinv.returned hret
    exact allUnitsDone_of_quiet hrun (completed_progs hc) (fun t ht _ => hc t ht)

/-- Witness of C3: the sample run over four URLs, after which `main` has
returned. -/
theorem wait_returns_after_all_units_witness :
    ∃ s, run sampleWorld (init (dispatch sampleUrls ProxyFunc.nil)) sampleSchedule = some s ∧
      mainReturned s ∧ allUnitsDone sampleUrls s :=
  have hrun := (Option.some_get sample_run_isSome).symm
  have hret : mainReturned ((run sampleWorld (init (dispatch sampleUrls ProxyFunc.nil))
      sampleSchedule).get sample_run_isSome) := by
    have hc := sample_run_completed
    have hinv := inv_of_run hrun
    obtain ⟨t, l, hl⟩ := List.exists_cons_of_ne_nil hinv.nonempty
    exact ⟨t, by rw [hl]; simp, hc t (by rw [hl]; exact List.mem_cons_self _ _)⟩
  ⟨_, hrun, hret,
    (wait_returns_after_all_units sampleWorld sampleUrls ProxyFunc.nil sampleSchedule _
      hrun).2.2 hret⟩

/-- C4: every run over `N` URLs can be completed, and a completed run has
started exactly `N` per-URL units, one for each entry of the list; every way
through `sendRequest` calls `wg.Done()` exactly once, as its last action; and
the run has made `N + ceil(N/20)` calls of `wg.Add(1)` and as many calls of
`wg.Done()`, leaving the count at zero without a panic. -/
theorem units_and_tracker_calls (world : Nat → Env) (urls : List String)
    (pf : ProxyFunc) :
    (∃ sched s, run world (init (dispatch urls pf)) sched = some s ∧ completed s) ∧
    (∀ sched s, run world (init (dispatch urls pf)) sched = some s → completed s →
      (requestUnits s).length = urls.length ∧
      (s.threads.filterMap (fun t => t.kind.url?)).Perm urls ∧
      s.adds = urls.length + (urls.length + 19) / 20 ∧
      s.dones = urls.length + (urls.length + 19) / 20 ∧
      s.counter = 0 ∧ s.panicked = false) ∧
    (∀ env u c, (sendRequest env u c).count Action.done = 1 ∧
      (sendRequest env u c).getLast? = some Action.done) := by
  refine ⟨?_, ?_, ?_⟩
  · exact can_complete world _ _ (inv_init pf _ (accepts_dispatch urls pf)) (le_refl _)
  · intro sched s hrun hdone
    have hinv := inv_of_run hrun
    obtain ⟨-, h2, h3, h4, h5, -⟩ := units_of_quiet hrun (completed_progs hdone)
    refine ⟨h2, Multiset.coe_eq_coe.mp h3, h4, h5, ?_, hinv.nopanic⟩
    rw [hinv.counter, tsum_of_no_weight _ _ s
      (fun t ht => by rw [hdone t ht]; rfl)]
    simp
  · intro env u c
    unfold sendRequest
    split
    · exact ⟨by simp, rfl⟩
    · dsimp only
      split
      · exact ⟨by simp, rfl⟩
      · split <;> exact ⟨by simp, rfl⟩

/-- Witness of C4: the sample run over four URLs. -/
theorem units_and_tracker_calls_witness :
    ∃ s, run sampleWorld (init (dispatch sampleUrls ProxyFunc.nil)) sampleSchedule = some s ∧
      completed s ∧ (requestUnits s).length = sampleUrls.length ∧
      s.adds = sampleUrls.length + (sampleUrls.length + 19) / 20 ∧
      s.dones = sampleUrls.length + (sampleUrls.length + 19) / 20 :=
  have hrun := (Option.some_get sample_run_isSome).symm
  have h := (units_and_tracker_calls sampleWorld sampleUrls ProxyFunc.nil).2.1
    sampleSchedule _ hrun sample_run_completed
  ⟨_, hrun, sample_run_completed, h.1, h.2.2.1, h.2.2.2.1⟩

theorem get_of_map_eq {α : Type} (f : State → α) (v : α) (o : Option State)
    (ho : o.isSome = true) (h : o.map f = some v) : f (o.get ho) = v := by
  cases o with
  | none => cases ho
  | some x => simpa using h

theorem clientDo_mem_sendRequest {env : Env} {u : String} {c x : Client} {r : Request}
    (h : Action.clientDo x r ∈ sendRequest env u c) : x = c := by
  unfold sendRequest at h
  split at h
  · simp at h
  · dsimp only at h
    split at h
    · simp at h; exact h.1
    · split at h <;> simp at h <;> exact h.1

/-- C5 fails as stated: over 21 URLs both batch units build a client, and the
first per-URL unit of the second batch is given another client than the first
per-URL unit of the first batch. -/
theorem one_client_per_run_counterexample :
    (run sampleWorld (init (dispatch urls21 ProxyFunc.nil)) twoBatchSchedule).map
        (fun s => s.clients)
      = some [{ addr := 1, proxy := ProxyFunc.nil, insecureSkipVerify := true },
              { addr := 2, proxy := ProxyFunc.nil, insecureSkipVerify := true }] ∧
    (run sampleWorld (init (dispatch urls21 ProxyFunc.nil)) twoBatchSchedule).map requestKinds
      = some [Kind.request "::" { addr := 1, proxy := ProxyFunc.nil, insecureSkipVerify := true },
              Kind.request "::" { addr := 2, proxy := ProxyFunc.nil, insecureSkipVerify := true }] := by
  rw [dispatch_urls21]
  constructor <;> decide

/-- C5, amended: every batch unit builds its own client.  The clients built in
a run are pairwise distinct instances, each built by a batch unit, all with the
proxy function of the run and with certificate verification switched off; a
completed run has built `ceil(N/20)` of them; and every per-URL unit sends its
request through the client of the batch unit that started it. -/
theorem one_client_per_batch (world : Nat → Env) (urls : List String)
    (pf : ProxyFunc) (sched : List Nat) (s : State)
    (hrun : run world (init (dispatch urls pf)) sched = some s) :
    (∀ c ∈ s.clients, c.proxy = pf ∧ c.insecureSkipVerify = true ∧
      ∃ tb b, s.threads[c.addr]? = some tb ∧ tb.kind = Kind.batch b c.addr) ∧
    s.clients.Nodup ∧
    (completed s → s.clients.length = (urls.length + 19) / 20) ∧
    (∀ t ∈ s.threads, ∀ u c, t.kind = Kind.request u c →
      c.proxy = pf ∧ c.insecureSkipVerify = true ∧
      ∃ tb b, s.threads[c.addr]? = some tb ∧ tb.kind = Kind.batch b c.addr ∧ u ∈ b) ∧
    (∀ env u c x r, Action.clientDo x r ∈ sendRequest env u c → x = c) := by
  have hinv := inv_of_run hrun
  refine ⟨?_, ?_, ?_, ?_, ?_⟩
  · intro c hc
    obtain ⟨h1, tb, h2, h3, -⟩ := hinv.clients c hc
    refine ⟨by rw [h1], by rw [h1], tb, ?_⟩
    cases hk : tb.kind with
    | main => rw [hk] at h3; cases h3
    | request u c1 => rw [hk] at h3; cases h3
    | batch b a =>
      obtain ⟨ha, -⟩ := hinv.batchAddr c.addr tb b a h2 hk
      exact ⟨b, h2, by rw [ha]⟩
  · exact List.Nodup.of_map _ hinv.nodup
  · intro hdone
    exact (units_of_quiet hrun (completed_progs hdone)).2.2.2.2.2
  · intro t ht u c hk
    obtain ⟨j, hj⟩ := List.getElem?_of_mem ht
    obtain ⟨h1, tb, b, h2, h3, h4⟩ := hinv.reqClient j t u c hj hk
    exact ⟨by rw [h1], by rw [h1], tb, b, h2, h3, h4⟩
  · intro env u c x r h
    exact clientDo_mem_sendRequest h

/-- Witness of C5 as amended: the sample run over four URLs (one batch) builds
one client. -/
theorem one_client_per_batch_witness :
    ∃ s, run sampleWorld (init (dispatch sampleUrls ProxyFunc.nil)) sampleSchedule = some s ∧
      completed s ∧ s.clients.length = (sampleUrls.length + 19) / 20 ∧ s.clients.Nodup :=
  have hrun := (Option.some_get sample_run_isSome).symm
  have h := one_client_per_batch sampleWorld sampleUrls ProxyFunc.nil sampleSchedule _ hrun
  ⟨_, hrun, sample_run_completed, h.2.2.1 sample_run_completed, h.2.1⟩

/-- C7 fails as stated: in the run of `main` over the file `urls.txt`, whose
one URL is rejected by `http.NewRequest`, no response is read, yet the run
makes one write to standard output, the diagnostic; nothing is written to
standard error. -/
theorem diagnostics_on_stdout_counterexample :
    (run sampleWorld (init (main sampleFlagParse sampleFS sampleUrlParse ["-w", "urls.txt"]))
        oneUrlSchedule).map (fun s => (s.out, isCompleted s))
      = some ([(Stream.stdout,
                "Error creating request for URL ::: missing protocol scheme\n")], true) := by
  rw [main_sample]
  decide

/-- C7, amended.  When `flag.Parse()` accepts the command line, every write of
the run, result or diagnostic, goes to standard output.  When it rejects the
command line, no unit is started and the only write is the text of the package
`flag`, to standard error, after which the process exits with the status of
that package; the run `[0, 0]` does just that.  Each per-URL unit makes
exactly one write, to standard output: the diagnostic of the stage that failed,
or `"<title> (<url>)"` and a newline when the body was read (with an empty
title field when extraction yields the empty string).  The title is written as
it is: the result write has one newline more than the title and the URL have
together, so it is a single line exactly when neither holds a newline, and so
it is with a diagnostic, its URL and its error text.  A completed run over `N`
URLs has made `N` writes, and one more when the proxy URL did not parse. -/
theorem output_streams_and_writes (flagParse : List String → FlagOutcome)
    (fs : FileSystem) (urlParse : String → Except String URL) (args : List String)
    (world : Nat → Env) (sched : List Nat) (s : State)
    (hrun : run world (init (main flagParse fs urlParse args)) sched = some s) :
    (∀ w p, flagParse args = FlagOutcome.parsed w p →
      ∀ e ∈ s.out, e.1 = Stream.stdout) ∧
    (∀ text status, flagParse args = FlagOutcome.failed text status →
      s.threads.length = 1 ∧
      (s.out = [] ∨ s.out = [(Stream.stderr, text)]) ∧
      (s.exited = none ∨ (s.exited = some status ∧ s.out = [(Stream.stderr, text)])) ∧
      ∃ s1, run world (init (main flagParse fs urlParse args)) [0, 0] = some s1 ∧
        s1.out = [(Stream.stderr, text)] ∧ s1.exited = some status) ∧
    (∀ env u c err, env.newRequest u = Except.error err →
      printed (sendRequest env u c)
        = [(Stream.stdout, "Error creating request for URL " ++ u ++ ": " ++ err ++ "\n")]) ∧
    (∀ env u c req err, env.newRequest u = Except.ok req →
      env.clientDo c { req with timeout := some 10 } = Except.error err →
      printed (sendRequest env u c)
        = [(Stream.stdout, "Error sending request for URL " ++ u ++ ": " ++ err ++ "\n")]) ∧
    (∀ env u c req resp err, env.newRequest u = Except.ok req →
      env.clientDo c { req with timeout := some 10 } = Except.ok resp →
      resp.body = Except.error err →
      printed (sendRequest env u c)
        = [(Stream.stdout,
            "Error reading response body for URL " ++ u ++ ": " ++ err ++ "\n")]) ∧
    (∀ env u c req resp body, env.newRequest u = Except.ok req →
      env.clientDo c { req with timeout := some 10 } = Except.ok resp →
      resp.body = Except.ok body →
      printed (sendRequest env u c)
        = [(Stream.stdout, extractTitle env.parse body ++ " (" ++ u ++ ")\n")]) ∧
    (∀ title u, newlines (title ++ " (" ++ u ++ ")\n") = newlines title + newlines u + 1) ∧
    (∀ pre u err, newlines (pre ++ u ++ ": " ++ err ++ "\n")
      = newlines pre + newlines u + newlines err + 1) ∧
    (∀ w p urls, flagParse args = FlagOutcome.parsed w p → w ≠ "" →
      readURLs fs w = Except.ok urls → completed s →
      s.out.length = (getProxyFunc urlParse p).2.length + urls.length) := by
  have n1 : newlines " (" = 0 := by decide
  have n2 : newlines ")\n" = 1 := by decide
  have n3 : newlines ": " = 0 := by decide
  have n4 : newlines "\n" = 1 := by decide
  refine ⟨?_, ?_, ?_, ?_, ?_, ?_, ?_, ?_, ?_⟩
  · intro w p hp
    rw [main_of_parsed hp] at hrun
    exact (outInv_run sched _ s (outInv_init _ (allStdout_mainProg _ _ _ _)) hrun).1
  · intro text status hf
    rw [main_of_failed hf] at hrun ⊢
    obtain ⟨p, hth, hcases⟩ := flag_failure_states world text status sched s hrun
    refine ⟨by rw [hth]; rfl, ?_, ?_, ?_⟩
    · rcases hcases with ⟨-, h, -⟩ | ⟨-, h, -⟩ | ⟨-, h, -⟩
      · exact Or.inl h
      · exact Or.inr h
      · exact Or.inr h
    · rcases hcases with ⟨-, -, h⟩ | ⟨-, -, h⟩ | ⟨-, h1, h2⟩
      · exact Or.inl h
      · exact Or.inl h
      · exact Or.inr ⟨h2, h1⟩
    · exact ⟨_, rfl, rfl, rfl⟩
  · intro env u c err h
    simp [sendRequest, h, printed]
  · intro env u c req err h1 h2
    simp [sendRequest, h1, h2, printed]
  · intro env u c req resp err h1 h2 h3
    simp [sendRequest, h1, h2, h3, printed]
  · intro env u c req resp body h1 h2 h3
    simp [sendRequest, h1, h2, h3, printed]
  · intro title u
    simp only [newlines_append]
    omega
  · intro pre u err
    simp only [newlines_append]
    omega
  · intro w p urls hp h1 h2 hdone
    rw [main_of_parsed hp] at hrun
    have h := conserve_print world sched _ s hrun
    rw [tsum_init, wPrint_mainProg fs urlParse w p urls h1 h2,
      tsum_of_no_weight _ _ s (fun t ht => by rw [hdone t ht]; rfl)] at h
    simpa [init] using h

theorem oneUrl_run_isSome :
    (run sampleWorld (init (main sampleFlagParse sampleFS sampleUrlParse ["-w", "urls.txt"]))
      oneUrlSchedule).isSome = true := by
  rw [main_sample]
  decide

/-- Witness of C7 as amended: the run over `urls.txt`, whose writes all go to
standard output; the command line `-x`, which the sample `flag.Parse` rejects,
where the one write goes to standard error and the process exits with status
2; and a result write of two lines, for the title `A`, newline, `B`. -/
theorem output_streams_and_writes_witness :
    (∃ s, run sampleWorld
          (init (main sampleFlagParse sampleFS sampleUrlParse ["-w", "urls.txt"]))
          oneUrlSchedule = some s ∧
        ∀ e ∈ s.out, e.1 = Stream.stdout) ∧
    (∃ s1, run sampleWorld (init (main sampleFlagParse sampleFS sampleUrlParse ["-x"]))
          [0, 0] = some s1 ∧
        s1.out = [(Stream.stderr, sampleUsage)] ∧ s1.exited = some 2) ∧
    newlines ("A\nB" ++ " (" ++ "http://a" ++ ")\n")
      = newlines "A\nB" + newlines "http://a" + 1 ∧
    printed (sendRequest sampleEnv "http://a"
        { addr := 1, proxy := ProxyFunc.nil, insecureSkipVerify := true })
      = [(Stream.stdout,
          extractTitle sampleEnv.parse [60, 116, 105, 116, 108, 101, 62]
            ++ " (" ++ "http://a" ++ ")\n")] :=
  have hrun := (Option.some_get oneUrl_run_isSome).symm
  have h := output_streams_and_writes sampleFlagParse sampleFS sampleUrlParse
    ["-w", "urls.txt"] sampleWorld oneUrlSchedule _ hrun
  have hx := output_streams_and_writes sampleFlagParse sampleFS sampleUrlParse
    ["-x"] sampleWorld [] _ rfl
  ⟨⟨_, hrun, h.1 "urls.txt" "" rfl⟩,
   (hx.2.1 sampleUsage 2 rfl).2.2.2,
   h.2.2.2.2.2.2.1 "A\nB" "http://a",
   h.2.2.2.2.2.1 sampleEnv "http://a" _ { method := "GET", url := "http://a", timeout := none }
      { body := Except.ok [60, 116, 105, 116, 108, 101, 62] } _ (by rfl) (by rfl) (by rfl)⟩

/-- C10 fails as stated: over 21 URLs the count is 1 once `main` has started
the first batch, is back at 0 when that batch and its 20 per-URL units have
returned before `main` goes on, and is 1 again when `main` registers the second
batch. -/
theorem count_zero_then_positive_counterexample :
    (run sampleWorld (init (dispatch urls21 ProxyFunc.nil)) [0, 0]).map
        (fun s => s.counter) = some 1 ∧
    (run sampleWorld (init (dispatch urls21 ProxyFunc.nil)) firstBatchSchedule).map
        (fun s => s.counter) = some 0 ∧
    (run sampleWorld (init (dispatch urls21 ProxyFunc.nil)) (firstBatchSchedule ++ [0])).map
        (fun s => s.counter) = some 1 := by
  rw [dispatch_urls21]
  refine ⟨?_, ?_, ?_⟩ <;> decide

/-- C10, amended: at every point of every run the count is the number of
unfinished batch units plus the number of unfinished per-URL units (a unit
being unfinished from its registration until it has returned), and no call of
`wg.Done()` panics.  Once `main` has registered its last batch, a count of
zero stays zero; and when `main` has returned the count is zero and no
goroutine has a step left. -/
theorem count_is_unfinished_units (world : Nat → Env) (urls : List String)
    (pf : ProxyFunc) (sched : List Nat) (s : State)
    (hrun : run world (init (dispatch urls pf)) sched = some s) :
    s.counter = unfinishedBatches s + unfinishedRequests s ∧
    s.panicked = false ∧
    (registeredLast s → s.counter = 0 →
      ∀ sched2 s2, run world s sched2 = some s2 → s2.counter = 0) ∧
    (mainReturned s → s.counter = 0 ∧ ∀ i, step world s i = none) := by
  have hinv := inv_of_run hrun
  refine ⟨counter_eq_unfinished hinv, hinv.nopanic, ?_, ?_⟩
  · intro hreg h0 sched2 s2 h2
    exact (atRest_run sched2 s s2 ⟨hinv, h0, hreg⟩ h2).2.1
  · intro hret
    have hc := hinv.returned hret
    constructor
    · rw [hinv.counter, tsum_of_no_weight _ _ s (fun t ht => by rw [hc t ht]; rfl)]
      simp
    · intro i
      cases h : step world s i with
      | none => rfl
      | some s1 =>
        obtain ⟨t, a, rest, ht, hprog, -, -, -⟩ := step_eq_some h
        have := hc t (List.mem_iff_getElem?.mpr ⟨i, ht⟩)
        rw [hprog] at this
        cases this

/-- Witness of C10 as amended: the state after the sample run over four URLs,
where `main` has registered its last batch and the count is zero. -/
theorem count_is_unfinished_units_witness :
    ∃ s, run sampleWorld (init (dispatch sampleUrls ProxyFunc.nil)) sampleSchedule = some s ∧
      registeredLast s ∧ s.counter = 0 ∧
      s.counter = unfinishedBatches s + unfinishedRequests s ∧
      run sampleWorld s [] = some s :=
  have hrun := (Option.some_get sample_run_isSome).symm
  have h := count_is_unfinished_units sampleWorld sampleUrls ProxyFunc.nil sampleSchedule _ hrun
  have hreg : registeredLast ((run sampleWorld (init (dispatch sampleUrls ProxyFunc.nil))
      sampleSchedule).get sample_run_isSome) := by
    intro t ht
    rw [sample_run_completed t (List.mem_iff_getElem?.mpr ⟨0, ht⟩)]
    simp
  have h0 : ((run sampleWorld (init (dispatch sampleUrls ProxyFunc.nil))
      sampleSchedule).get sample_run_isSome).counter = 0 := by
    apply get_of_map_eq (fun s => s.counter)
    rw [dispatch_sampleUrls]
    decide
  ⟨_, hrun, hreg, h.2.2.1 hreg h0 [] _ rfl, h.1, rfl⟩

end Title
